import Mathlib

set_option maxHeartbeats 1000000

/-!
Verification of the operast core: a shallow embedding of the Thompson VM
(`thompson.py`), the operator compiler (`operator.py`), the tree-pattern
algebra with canonical normal form (`tree.py` / `pattern.py`), the
sibling/ordering constraints (`constraints.py`) and the extension-method
bridge (`_ext.py`), together with theorems settling the specification
claims about them.
-/

namespace Operast

/-! ## Thompson VM (`thompson.py`)

Instructions carry absolute program addresses.  `thompson.py` names the
base class `Inst`; we keep that name.  The VM's inner loop iterates over
`c_list` by position while `Jump`/`Split` append to the same list, so the
loop is modelled as one micro-step function `vmStep1` over a frame holding
the growing list `cs`, the read position `i`, and the next list `ns`;
the fuelled `vmRun` iterates it.  The sentinel end-of-input pass is the
`none` item.
-/

inductive Inst (T : Type) where
  | Unit (unit : T)
  | UnitList (units : List T)
  | AnyUnit
  | Match
  | Jump (goto : Nat)
  | Split (goto_x goto_y : Nat)
  deriving DecidableEq

structure VmFrame where
  cs : List Nat
  i : Nat
  ns : List Nat
  deriving DecidableEq

inductive StepOut where
  | cont (s : VmFrame)
  | matched
  | oob
  | done (ns : List Nat)
  deriving DecidableEq

/-- The body of the inner `for program_counter in c_list` loop of
`thompson_vm` for one program counter `pc`: dispatch on the instruction and
mutate the frame exactly as the Python branch does.  An out-of-range
program counter is the Python `IndexError`, returned as `oob`. -/
def vmDispatch {T : Type} (prog : List (Inst T)) (uEq : T → T → Bool)
    (item : Option T) (pc : Nat) (s : VmFrame) : StepOut :=
  match prog.get? pc with
    | none => .oob
    | some (.Unit u) =>
      match item with
      | none => .cont ⟨s.cs, s.i + 1, s.ns⟩
      | some it =>
        if uEq it u then .cont ⟨s.cs, s.i + 1, s.ns ++ [pc + 1]⟩
        else .cont ⟨s.cs, s.i + 1, s.ns⟩
    | some (.UnitList us) =>
      match item with
      | none => .cont ⟨s.cs, s.i + 1, s.ns⟩
      | some it =>
        if us.any (fun u => uEq it u) then .cont ⟨s.cs, s.i + 1, s.ns ++ [pc + 1]⟩
        else .cont ⟨s.cs, s.i + 1, s.ns⟩
    | some .AnyUnit => .cont ⟨s.cs, s.i + 1, s.ns ++ [pc + 1]⟩
    | some .Match => .matched
    | some (.Jump g) => .cont ⟨s.cs ++ [g], s.i + 1, s.ns⟩
    | some (.Split x y) => .cont ⟨s.cs ++ [x, y], s.i + 1, s.ns⟩

/-- One iteration of the inner loop: read `cs[i]` and dispatch; past the
end of `c_list` the loop finishes with the accumulated `n_list`. -/
def vmStep1 {T : Type} (prog : List (Inst T)) (uEq : T → T → Bool)
    (item : Option T) (s : VmFrame) : StepOut :=
  if h : s.i < s.cs.length then
    vmDispatch prog uEq item (s.cs.get ⟨s.i, h⟩) s
  else .done s.ns

inductive InnerRes where
  | matched
  | oob
  | noFuel
  | next (ns : List Nat)
  deriving DecidableEq

/-- The fuelled inner loop: iterate `vmStep1` until the frame is exhausted
(`next`), `Match` fires (`matched`), or an address is out of range. -/
def vmRun {T : Type} (prog : List (Inst T)) (uEq : T → T → Bool) (item : Option T) :
    Nat → VmFrame → InnerRes
  | 0, _ => .noFuel
  | fuel + 1, s =>
    match vmStep1 prog uEq item s with
    | .cont s' => vmRun prog uEq item fuel s'
    | .matched => .matched
    | .oob => .oob
    | .done ns => .next ns

/-- Iterate `vmStep1` a fixed number of micro-steps; used to observe the
intermediate `c_list` of a run. -/
def vmIter {T : Type} (prog : List (Inst T)) (uEq : T → T → Bool) (item : Option T) :
    Nat → VmFrame → StepOut
  | 0, s => .cont s
  | n + 1, s =>
    match vmStep1 prog uEq item s with
    | .cont s' => vmIter prog uEq item n s'
    | t => t

inductive VmRes where
  | accept
  | reject
  | oob
  | noFuel
  deriving DecidableEq

/-- The outer loop of `thompson_vm` over `[*sequence, __NO_MATCH]`:
each item runs the inner loop from `⟨c_list, 0, []⟩`; reaching the end of
the items yields `False`. -/
def thompsonVmAux {T : Type} (prog : List (Inst T)) (uEq : T → T → Bool) (fuel : Nat) :
    List (Option T) → List Nat → VmRes
  | [], _ => .reject
  | item :: rest, cs =>
    match vmRun prog uEq item fuel ⟨cs, 0, []⟩ with
    | .matched => .accept
    | .oob => .oob
    | .noFuel => .noFuel
    | .next ns => thompsonVmAux prog uEq fuel rest ns

/-- `thompson_vm(program, sequence, ident)` with explicit fuel for the
inner loop (the Python loop has no bound; `noFuel` marks runs that would
still be going). -/
def thompson_vm {T : Type} (fuel : Nat) (prog : List (Inst T)) (sequence : List T)
    (uEq : T → T → Bool) : VmRes :=
  thompsonVmAux prog uEq fuel (sequence.map some ++ [none]) [0]

def chEq : Char → Char → Bool := fun a b => a == b

/-- Program for the regex `a b? c`. -/
def progABqC : List (Inst Char) :=
  [.Unit 'a', .Split 2 3, .Unit 'b', .Unit 'c', .Match]

/-- Program for the regex `a+ b+`. -/
def progApBp : List (Inst Char) :=
  [.Unit 'a', .Split 0 2, .Unit 'b', .Split 2 4, .Match]

/-- C1: the VM accepts "ac" and "abc" and rejects "a", "ab", "abbc" on the
`a b? c` program, and accepts "aaaabbb" and rejects "a", "b" on the
`a+ b+` program. -/
theorem thompson_vm_literal_accept_reject :
    thompson_vm 100 progABqC ['a', 'c'] chEq = .accept ∧
    thompson_vm 100 progABqC ['a', 'b', 'c'] chEq = .accept ∧
    thompson_vm 100 progABqC ['a'] chEq = .reject ∧
    thompson_vm 100 progABqC ['a', 'b'] chEq = .reject ∧
    thompson_vm 100 progABqC ['a', 'b', 'b', 'c'] chEq = .reject ∧
    thompson_vm 100 progApBp ['a', 'a', 'a', 'a', 'b', 'b', 'b'] chEq = .accept ∧
    thompson_vm 100 progApBp ['a'] chEq = .reject ∧
    thompson_vm 100 progApBp ['b'] chEq = .reject := by
  refine ⟨?_, ?_, ?_, ?_, ?_, ?_, ?_, ?_⟩ <;> decide

/-! ### Resource behaviour of the VM (claim C2)

`thompson_vm` never removes duplicate program counters, so a `Split`
whose two targets coincide doubles the number of live threads and the
growing `c_list` of a single input step can exceed the program size.
Worse, a backward `Jump`/`Split` lets `c_list` feed itself forever.  What
does hold: when every `Jump`/`Split` target is strictly larger than the
instruction's own index, each micro-step strictly decreases the measure
`Σ 3^(m - pc)` over the unread part of `c_list`, so the VM terminates. -/

/-- Four instructions whose two stacked `Split`s duplicate threads:
program for which `c_list` grows to 7 entries while `m = 4`. -/
def progDouble : List (Inst Char) :=
  [.Split 1 1, .Split 2 2, .Unit 'a', .Match]

/-- C2 counterexample: after three micro-steps of the first input step on
`progDouble`, `c_list` holds 7 entries — more than the 4 instructions of
the program — refuting \"`c_list` never exceeds `m` entries\". -/
theorem c_list_exceeds_program_size :
    vmIter progDouble chEq (some 'a') 3 ⟨[0], 0, []⟩ =
      .cont ⟨[0, 1, 1, 2, 2, 2, 2], 3, []⟩ ∧
    progDouble.length < 7 := by
  exact ⟨by decide, by decide⟩

/-- Does instruction `inst`, sitting at index `i`, only ever enqueue
program counters strictly beyond `i`? -/
def instForward (i : Nat) : Inst T → Bool
  | .Jump g => decide (i < g)
  | .Split x y => decide (i < x) && decide (i < y)
  | _ => true

def epsForwardFrom {T : Type} : Nat → List (Inst T) → Bool
  | _, [] => true
  | i, inst :: rest => instForward i inst && epsForwardFrom (i + 1) rest

/-- Every `Jump`/`Split` target of the program exceeds the instruction's
own index (no backward ε-transition, hence no ε-cycle). -/
def epsForward {T : Type} (prog : List (Inst T)) : Bool :=
  epsForwardFrom 0 prog

theorem epsForwardFrom_get? {T : Type} {l : List (Inst T)} {i k : Nat} {inst : Inst T}
    (hf : epsForwardFrom i l = true) (hg : l.get? k = some inst) :
    instForward (i + k) inst = true := by
  induction l generalizing i k with
  | nil => simp at hg
  | cons a rest ih =>
    rw [epsForwardFrom, Bool.and_eq_true] at hf
    cases k with
    | zero => simp at hg; subst hg; simpa using hf.1
    | succ k' =>
      have h2 := ih hf.2 (by simpa using hg)
      have h3 : i + 1 + k' = i + (k' + 1) := by omega
      rw [h3] at h2
      exact h2

theorem epsForward_get? {T : Type} {prog : List (Inst T)} {pc : Nat} {inst : Inst T}
    (hf : epsForward prog = true) (hg : prog.get? pc = some inst) :
    instForward pc inst = true := by
  have := epsForwardFrom_get? (i := 0) hf hg
  simpa using this

/-- Weight of one pending program counter: `3 ^ (m - pc)`. -/
def epsWeight (m pc : Nat) : Nat := 3 ^ (m - pc)

def epsSum (m : Nat) (l : List Nat) : Nat := (l.map (epsWeight m)).sum

/-- Measure of a frame: total weight of the unread tail of `c_list`. -/
def epsMeasure (m : Nat) (s : VmFrame) : Nat := epsSum m (s.cs.drop s.i)

theorem epsSum_cons (m a : Nat) (l : List Nat) :
    epsSum m (a :: l) = epsWeight m a + epsSum m l := by
  simp [epsSum]

theorem epsSum_append (m : Nat) (l l' : List Nat) :
    epsSum m (l ++ l') = epsSum m l + epsSum m l' := by
  simp [epsSum]

theorem epsWeight_pos (m pc : Nat) : 0 < epsWeight m pc :=
  Nat.pos_pow_of_pos _ (by norm_num)

theorem epsWeight_lt {m pc g : Nat} (hpc : pc < m) (hg : pc < g) :
    epsWeight m g < epsWeight m pc := by
  have h1 : m - g ≤ m - (pc + 1) := Nat.sub_le_sub_left hg m
  have h2 : m - (pc + 1) < m - pc := by omega
  calc epsWeight m g = 3 ^ (m - g) := rfl
    _ ≤ 3 ^ (m - (pc + 1)) := Nat.pow_le_pow_right (by norm_num) h1
    _ < 3 ^ (m - pc) := Nat.pow_lt_pow_right (by norm_num) h2

theorem epsWeight_add_lt {m pc x y : Nat} (hpc : pc < m) (hx : pc < x) (hy : pc < y) :
    epsWeight m x + epsWeight m y < epsWeight m pc := by
  obtain ⟨k, hk⟩ : ∃ k, m - pc = k + 1 := ⟨m - pc - 1, by omega⟩
  have hxk : m - x ≤ k := by omega
  have hyk : m - y ≤ k := by omega
  have h3 : epsWeight m x ≤ 3 ^ k := Nat.pow_le_pow_right (by norm_num) hxk
  have h4 : epsWeight m y ≤ 3 ^ k := Nat.pow_le_pow_right (by norm_num) hyk
  have : epsWeight m pc = 3 * 3 ^ k := by
    show 3 ^ (m - pc) = 3 * 3 ^ k
    rw [hk, pow_succ, Nat.mul_comm]
  rw [this]
  have h5 : 0 < 3 ^ k := Nat.pos_pow_of_pos _ (by norm_num)
  omega

/-- The measure of the frame splits as the current counter's weight plus
the measure after advancing past it. -/
theorem epsMeasure_split (m : Nat) (s : VmFrame) (hi : s.i < s.cs.length) :
    epsMeasure m s =
      epsWeight m (s.cs.get ⟨s.i, hi⟩) + epsSum m (s.cs.drop (s.i + 1)) := by
  unfold epsMeasure
  rw [List.drop_eq_get_cons hi, epsSum_cons]

/-- Each continuing micro-step of an ε-forward program strictly decreases
the measure. -/
theorem vmStep1_measure_lt {T : Type} {prog : List (Inst T)} {uEq : T → T → Bool}
    {item : Option T} {s s' : VmFrame}
    (hf : epsForward prog = true)
    (h : vmStep1 prog uEq item s = .cont s') :
    epsMeasure prog.length s' < epsMeasure prog.length s := by
  unfold vmStep1 at h
  by_cases hi : s.i < s.cs.length
  swap
  · rw [dif_neg hi] at h; exact absurd h (by simp)
  rw [dif_pos hi] at h
  have hsplit := epsMeasure_split prog.length s hi
  set pc := s.cs.get ⟨s.i, hi⟩ with hpcdef
  set m := prog.length with hm
  cases hg : prog.get? pc with
  | none => simp only [vmDispatch, hg] at h; exact StepOut.noConfusion h
  | some inst =>
    have hpcm : pc < m := by
      rw [hm]; exact (List.get?_eq_some.mp hg).1
    have hadv : ∀ ns', epsMeasure m (⟨s.cs, s.i + 1, ns'⟩ : VmFrame) < epsMeasure m s := by
      intro ns'
      rw [hsplit]
      have he : epsMeasure m (⟨s.cs, s.i + 1, ns'⟩ : VmFrame) =
          epsSum m (s.cs.drop (s.i + 1)) := rfl
      rw [he]
      have := epsWeight_pos m pc
      omega
    have happ : ∀ extra, epsSum m extra < epsWeight m pc →
        epsMeasure m (⟨s.cs ++ extra, s.i + 1, s.ns⟩ : VmFrame) < epsMeasure m s := by
      intro extra hlt
      rw [hsplit]
      have hdrop : (s.cs ++ extra).drop (s.i + 1) = s.cs.drop (s.i + 1) ++ extra :=
        List.drop_append_of_le_length (by omega)
      have he : epsMeasure m (⟨s.cs ++ extra, s.i + 1, s.ns⟩ : VmFrame) =
          epsSum m (s.cs.drop (s.i + 1)) + epsSum m extra := by
        unfold epsMeasure
        rw [hdrop, epsSum_append]
      rw [he]
      omega
    cases inst with
    | Unit u =>
      cases item with
      | none => simp only [vmDispatch, hg] at h; cases h; exact hadv _
      | some it =>
        simp only [vmDispatch, hg] at h
        split at h <;> (cases h; exact hadv _)
    | UnitList us =>
      cases item with
      | none => simp only [vmDispatch, hg] at h; cases h; exact hadv _
      | some it =>
        simp only [vmDispatch, hg] at h
        split at h <;> (cases h; exact hadv _)
    | AnyUnit => simp only [vmDispatch, hg] at h; cases h; exact hadv _
    | Match => simp only [vmDispatch, hg] at h; exact StepOut.noConfusion h
    | Jump g =>
      simp only [vmDispatch, hg] at h
      cases h
      have hfwd := epsForward_get? hf hg
      have hgg : pc < g := by simpa [instForward] using hfwd
      apply happ
      have he0 : epsSum m [g] = epsWeight m g := by
        simp [epsSum]
      rw [he0]
      exact epsWeight_lt hpcm hgg
    | Split x y =>
      simp only [vmDispatch, hg] at h
      cases h
      have hfwd := epsForward_get? hf hg
      have hxy : pc < x ∧ pc < y := by
        simpa [instForward, Bool.and_eq_true] using hfwd
      apply happ
      have he0 : epsSum m [x, y] = epsWeight m x + epsWeight m y := by
        simp [epsSum]
      rw [he0]
      exact epsWeight_add_lt hpcm hxy.1 hxy.2

/-- With fuel above the measure, the inner loop of an ε-forward program
finishes. -/
theorem vmRun_ne_noFuel {T : Type} {prog : List (Inst T)} {uEq : T → T → Bool}
    {item : Option T} (hf : epsForward prog = true) :
    ∀ fuel s, epsMeasure prog.length s < fuel →
      vmRun prog uEq item fuel s ≠ .noFuel := by
  intro fuel
  induction fuel with
  | zero => intro s hs; omega
  | succ n ih =>
    intro s hs
    rw [vmRun]
    cases hstep : vmStep1 prog uEq item s with
    | cont s' =>
      simp only []
      exact ih s' (by have := vmStep1_measure_lt hf hstep; omega)
    | matched => simp
    | oob => simp
    | done ns => simp

/-- More fuel does not change a finished inner run. -/
theorem vmRun_mono {T : Type} {prog : List (Inst T)} {uEq : T → T → Bool}
    {item : Option T} :
    ∀ {fuel fuel' : Nat} {s : VmFrame}, fuel ≤ fuel' →
      vmRun prog uEq item fuel s ≠ .noFuel →
      vmRun prog uEq item fuel' s = vmRun prog uEq item fuel s := by
  intro fuel
  induction fuel with
  | zero => intro fuel' s _ hne; exact absurd rfl hne
  | succ n ih =>
    intro fuel' s hle hne
    cases fuel' with
    | zero => omega
    | succ n' =>
      rw [vmRun] at hne ⊢
      rw [vmRun]
      cases hstep : vmStep1 prog uEq item s with
      | cont s' =>
        rw [hstep] at hne
        simp only [] at hne ⊢
        exact ih (by omega) hne
      | matched => rfl
      | oob => rfl
      | done ns => rfl

/-- More fuel does not change a finished whole run. -/
theorem thompsonVmAux_mono {T : Type} {prog : List (Inst T)} {uEq : T → T → Bool}
    {fuel fuel' : Nat} (hle : fuel ≤ fuel') :
    ∀ items cs, thompsonVmAux prog uEq fuel items cs ≠ .noFuel →
      thompsonVmAux prog uEq fuel' items cs = thompsonVmAux prog uEq fuel items cs := by
  intro items
  induction items with
  | nil => intro cs _; rfl
  | cons item rest ih =>
    intro cs hne
    rw [thompsonVmAux] at hne ⊢
    rw [thompsonVmAux]
    cases hrun : vmRun prog uEq item fuel ⟨cs, 0, []⟩ with
    | matched => rw [vmRun_mono hle (by rw [hrun]; simp), hrun]
    | oob => rw [vmRun_mono hle (by rw [hrun]; simp), hrun]
    | noFuel => rw [hrun] at hne; exact absurd rfl hne
    | next ns =>
      rw [vmRun_mono hle (by rw [hrun]; simp), hrun]
      rw [hrun] at hne
      simp only [] at hne ⊢
      exact ih ns hne

/-- C2 (amended): on a program all of whose `Jump`/`Split` targets exceed
the instruction's own index, `thompson_vm` terminates on every input
(some fuel yields a real result).  The original claim fails: without
deduplication `c_list` may exceed the program size
(`c_list_exceeds_program_size`) and backward ε-edges loop forever. -/
theorem thompson_vm_terminates_forward {T : Type} (prog : List (Inst T))
    (uEq : T → T → Bool) (seq : List T) (hf : epsForward prog = true) :
    ∃ fuel, thompson_vm fuel prog seq uEq ≠ .noFuel := by
  suffices h : ∀ items cs, ∃ fuel,
      thompsonVmAux prog uEq fuel items (cs : List Nat) ≠ .noFuel by
    obtain ⟨fuel, hfuel⟩ := h (seq.map some ++ [none]) [0]
    exact ⟨fuel, hfuel⟩
  intro items
  induction items with
  | nil => intro cs; exact ⟨0, by rw [thompsonVmAux]; simp⟩
  | cons item rest ih =>
    intro cs
    set f1 := epsMeasure prog.length ⟨cs, 0, []⟩ + 1 with hf1
    have hrun1 : vmRun prog uEq item f1 ⟨cs, 0, []⟩ ≠ .noFuel :=
      vmRun_ne_noFuel hf f1 _ (by omega)
    cases hres : vmRun prog uEq item f1 ⟨cs, 0, []⟩ with
    | matched =>
      refine ⟨f1, ?_⟩
      rw [thompsonVmAux, hres]
      simp
    | oob =>
      refine ⟨f1, ?_⟩
      rw [thompsonVmAux, hres]
      simp
    | noFuel => exact absurd hres hrun1
    | next ns =>
      obtain ⟨f2, hf2⟩ := ih ns
      refine ⟨max f1 f2, ?_⟩
      rw [thompsonVmAux]
      rw [vmRun_mono (Nat.le_max_left f1 f2) (by rw [hres]; simp), hres]
      simp only []
      rw [thompsonVmAux_mono (Nat.le_max_right f1 f2) rest ns hf2]
      exact hf2

/-- Witness for `thompson_vm_terminates_forward`: the `a b? c` program is
ε-forward, so the VM terminates on `"ac"`. -/
theorem thompson_vm_terminates_forward_witness :
    epsForward progABqC = true ∧
    ∃ fuel, thompson_vm fuel progABqC ['a', 'c'] chEq ≠ .noFuel :=
  ⟨by decide, thompson_vm_terminates_forward progABqC chEq ['a', 'c'] (by decide)⟩

/-! ## Operator algebra and program compiler (`operator.py`)

An operator sequence is a list of `OpElem`: bare elements or nested
operators.  `compile` threads the mutable `ProgramCounter` as an explicit
`Nat`; `pc` always equals the index of the next instruction to be
emitted, and the post-hoc patching of `Split`/`Jump` targets (Python
mutates the already-yielded object) is resolved by using the program
counter reached after compiling the patched-over body. -/

mutual
inductive Op (T : Type) where
  | Plus (elems : List (OpElem T)) (greedy : Bool)
  | Star (elems : List (OpElem T)) (greedy : Bool)
  | QMark (elems : List (OpElem T)) (greedy : Bool)
  | Alt (left right : List (OpElem T))
  | Lst (elems : List T)
  | Dot
  | Repeat (elems : List (OpElem T)) (count : Nat)

inductive OpElem (T : Type) where
  | elem (t : T)
  | op (o : Op T)
end

mutual

/-- `Op.compile(pc)` for each operator class of `operator.py`. -/
def compileOp {T : Type} : Op T → Nat → List (Inst T) × Nat
  | .Plus es g, pc =>
    let (body, pc1) := compile_elements es pc
    (body ++ [if g then Inst.Split pc (pc1 + 1) else Inst.Split (pc1 + 1) pc], pc1 + 1)
  | .Star es g, pc =>
    let (body, pcB) := compile_elements es (pc + 1)
    ((if g then Inst.Split (pc + 1) (pcB + 1) else Inst.Split (pcB + 1) (pc + 1)) ::
      (body ++ [Inst.Jump pc]), pcB + 1)
  | .QMark es g, pc =>
    let (body, pcB) := compile_elements es (pc + 1)
    ((if g then Inst.Split (pc + 1) pcB else Inst.Split pcB (pc + 1)) :: body, pcB)
  | .Alt l r, pc =>
    let (left, pcL) := compile_elements l (pc + 1)
    let (right, pcR) := compile_elements r (pcL + 1)
    (Inst.Split (pc + 1) (pcL + 1) :: (left ++ Inst.Jump pcR :: right), pcR)
  | .Lst es, pc => ([Inst.UnitList es], pc + 1)
  | .Dot, pc => ([Inst.AnyUnit], pc + 1)
  | .Repeat es c, pc => compileRepeat c es pc
termination_by o _ => (sizeOf o, 0)
decreasing_by all_goals (simp_wf; omega)

/-- The unrolled loop of `Repeat.compile`. -/
def compileRepeat {T : Type} : Nat → List (OpElem T) → Nat → List (Inst T) × Nat
  | 0, _, pc => ([], pc)
  | n + 1, es, pc =>
    let (body, pc1) := compile_elements es pc
    let (rest, pc2) := compileRepeat n es pc1
    (body ++ rest, pc2)
termination_by n es _ => (sizeOf es, n + 1)
decreasing_by all_goals (simp_wf; omega)

/-- `compile_elements(es, pc)`: bare elements emit `Unit` and bump the
counter; operators are compiled recursively. -/
def compile_elements {T : Type} : List (OpElem T) → Nat → List (Inst T) × Nat
  | [], pc => ([], pc)
  | .elem t :: rest, pc =>
    let (r, pc') := compile_elements rest (pc + 1)
    (Inst.Unit t :: r, pc')
  | .op o :: rest, pc =>
    let (i1, pc1) := compileOp o pc
    let (r, pc2) := compile_elements rest pc1
    (i1 ++ r, pc2)
termination_by es _ => (sizeOf es, 0)
decreasing_by all_goals (simp_wf; omega)

end

/-- `compile_regex(seq)`: compile the top-level sequence from a fresh
counter and append the single `Match`. -/
def compile_regex {T : Type} (seq : List (OpElem T)) : List (Inst T) :=
  (compile_elements seq 0).1 ++ [Inst.Match]

/-- C5: `compile_regex(['a', QMark('b'), 'c'])` is exactly
`[Unit(a), Split(2,3), Unit(b), Unit(c), Match]`. -/
theorem compile_regex_a_bq_c :
    compile_regex [.elem 'a', .op (.QMark [.elem 'b'] true), .elem 'c'] =
      [.Unit 'a', .Split 2 3, .Unit 'b', .Unit 'c', Inst.Match] := by
  simp [compile_regex, compile_elements, compileOp]

/-! ### Compiled programs are closed (claim C10) -/

def isMatchI {T : Type} : Inst T → Bool
  | .Match => true
  | _ => false

/-- All `Jump`/`Split` targets of the instruction are at most `bound`. -/
def targetsLE {T : Type} (bound : Nat) : Inst T → Bool
  | .Jump g => decide (g ≤ bound)
  | .Split x y => decide (x ≤ bound) && decide (y ≤ bound)
  | _ => true

/-- The program holds exactly one `Match`, as its final instruction, and
every `Jump`/`Split` target is a valid index (at most `length - 1`). -/
def progOk {T : Type} (prog : List (Inst T)) : Bool :=
  decide (prog.countP isMatchI = 1) &&
  (match prog.getLast? with
   | some inst => isMatchI inst
   | none => false) &&
  prog.all (targetsLE (prog.length - 1))

theorem targetsLE_mono {T : Type} {b b' : Nat} (h : b ≤ b') {inst : Inst T}
    (ht : targetsLE b inst = true) : targetsLE b' inst = true := by
  cases inst <;> simp [targetsLE] at ht ⊢ <;> omega

/-- The invariant the compiler maintains: the counter advances by the
number of emitted instructions, no emitted instruction is `Match`, and
every emitted target is at most the counter after this chunk. -/
def compOk {T : Type} (pc : Nat) (res : List (Inst T) × Nat) : Prop :=
  res.2 = pc + res.1.length ∧
  ∀ inst ∈ res.1, isMatchI inst = false ∧ targetsLE res.2 inst = true

/-- Destructured form of `compOk` on an explicit pair. -/
theorem compOk_pair {T : Type} {pc : Nat} {l : List (Inst T)} {pcE : Nat}
    (h : compOk pc (l, pcE)) :
    pcE = pc + l.length ∧ ∀ inst ∈ l, isMatchI inst = false ∧ targetsLE pcE inst = true := h

theorem compOk_pair_intro {T : Type} {pc : Nat} {l : List (Inst T)} {pcE : Nat}
    (h1 : pcE = pc + l.length)
    (h2 : ∀ inst ∈ l, isMatchI inst = false ∧ targetsLE pcE inst = true) :
    compOk pc (l, pcE) := ⟨h1, h2⟩

mutual

theorem compileOp_ok {T : Type} (o : Op T) (pc : Nat) : compOk pc (compileOp o pc) := by
  cases o with
  | Plus es g =>
    rcases hbe : compile_elements es pc with ⟨body, pc1⟩
    obtain ⟨h1, h2⟩ := compOk_pair (hbe ▸ compile_elements_ok es pc)
    simp only [compileOp, hbe]
    refine compOk_pair_intro ?_ ?_
    · simp only [List.length_append, List.length_cons, List.length_nil]
      omega
    · intro inst hmem
      rcases List.mem_append.mp hmem with hm | hm
      · have hi := h2 inst hm
        exact ⟨hi.1, targetsLE_mono (by omega) hi.2⟩
      · simp only [List.mem_singleton] at hm
        subst hm
        cases g <;> exact ⟨rfl, by simp [targetsLE]; omega⟩
  | Star es g =>
    rcases hbe : compile_elements es (pc + 1) with ⟨body, pcB⟩
    obtain ⟨h1, h2⟩ := compOk_pair (hbe ▸ compile_elements_ok es (pc + 1))
    simp only [compileOp, hbe]
    refine compOk_pair_intro ?_ ?_
    · simp only [List.length_append, List.length_cons, List.length_nil]
      omega
    · intro inst hmem
      rcases List.mem_cons.mp hmem with hm | hm
      · subst hm
        cases g <;> exact ⟨rfl, by simp [targetsLE]; omega⟩
      rcases List.mem_append.mp hm with hm2 | hm2
      · have hi := h2 inst hm2
        exact ⟨hi.1, targetsLE_mono (by omega) hi.2⟩
      · simp only [List.mem_singleton] at hm2
        subst hm2
        exact ⟨rfl, by simp [targetsLE]; omega⟩
  | QMark es g =>
    rcases hbe : compile_elements es (pc + 1) with ⟨body, pcB⟩
    obtain ⟨h1, h2⟩ := compOk_pair (hbe ▸ compile_elements_ok es (pc + 1))
    simp only [compileOp, hbe]
    refine compOk_pair_intro ?_ ?_
    · simp only [List.length_cons]
      omega
    · intro inst hmem
      rcases List.mem_cons.mp hmem with hm | hm
      · subst hm
        cases g <;> exact ⟨rfl, by simp [targetsLE]; omega⟩
      · exact h2 inst hm
  | Alt l r =>
    rcases hbl : compile_elements l (pc + 1) with ⟨left, pcL⟩
    obtain ⟨hl1, hl2⟩ := compOk_pair (hbl ▸ compile_elements_ok l (pc + 1))
    rcases hbr : compile_elements r (pcL + 1) with ⟨right, pcR⟩
    obtain ⟨hr1, hr2⟩ := compOk_pair (hbr ▸ compile_elements_ok r (pcL + 1))
    simp only [compileOp, hbl, hbr]
    refine compOk_pair_intro ?_ ?_
    · simp only [List.length_cons, List.length_append]
      omega
    · intro inst hmem
      rcases List.mem_cons.mp hmem with hm | hm
      · subst hm
        exact ⟨rfl, by simp [targetsLE]; omega⟩
      rcases List.mem_append.mp hm with hm2 | hm2
      · have hi := hl2 inst hm2
        exact ⟨hi.1, targetsLE_mono (by omega) hi.2⟩
      rcases List.mem_cons.mp hm2 with hm3 | hm3
      · subst hm3
        exact ⟨rfl, by simp [targetsLE]⟩
      · exact hr2 inst hm3
  | Lst es =>
    simp only [compileOp]
    refine compOk_pair_intro (by simp) ?_
    intro inst hmem
    simp only [List.mem_singleton] at hmem
    subst hmem
    exact ⟨rfl, rfl⟩
  | Dot =>
    simp only [compileOp]
    refine compOk_pair_intro (by simp) ?_
    intro inst hmem
    simp only [List.mem_singleton] at hmem
    subst hmem
    exact ⟨rfl, rfl⟩
  | Repeat es c =>
    simp only [compileOp]
    exact compileRepeat_ok c es pc
termination_by (sizeOf o, 0)
decreasing_by all_goals (simp_wf; omega)

theorem compileRepeat_ok {T : Type} (n : Nat) (es : List (OpElem T)) (pc : Nat) :
    compOk pc (compileRepeat n es pc) := by
  cases n with
  | zero =>
    simp only [compileRepeat]
    refine compOk_pair_intro (by simp) ?_
    intro inst h
    simp at h
  | succ k =>
    rcases hbe : compile_elements es pc with ⟨body, pc1⟩
    obtain ⟨h1, h2⟩ := compOk_pair (hbe ▸ compile_elements_ok es pc)
    rcases hre : compileRepeat k es pc1 with ⟨rest, pc2⟩
    obtain ⟨h3, h4⟩ := compOk_pair (hre ▸ compileRepeat_ok k es pc1)
    simp only [compileRepeat, hbe, hre]
    refine compOk_pair_intro ?_ ?_
    · simp only [List.length_append]
      omega
    · intro inst hmem
      rcases List.mem_append.mp hmem with hm | hm
      · have hi := h2 inst hm
        exact ⟨hi.1, targetsLE_mono (by omega) hi.2⟩
      · exact h4 inst hm
termination_by (sizeOf es, n + 1)
decreasing_by all_goals (simp_wf; omega)

theorem compile_elements_ok {T : Type} (es : List (OpElem T)) (pc : Nat) :
    compOk pc (compile_elements es pc) := by
  cases es with
  | nil =>
    simp only [compile_elements]
    refine compOk_pair_intro (by simp) ?_
    intro inst h
    simp at h
  | cons e rest =>
    cases e with
    | elem t =>
      rcases hre : compile_elements rest (pc + 1) with ⟨r, pcE⟩
      obtain ⟨h1, h2⟩ := compOk_pair (hre ▸ compile_elements_ok rest (pc + 1))
      simp only [compile_elements, hre]
      refine compOk_pair_intro ?_ ?_
      · simp only [List.length_cons]
        omega
      · intro inst hmem
        rcases List.mem_cons.mp hmem with hm | hm
        · subst hm
          exact ⟨rfl, rfl⟩
        · exact h2 inst hm
    | op o =>
      rcases hoe : compileOp o pc with ⟨i1, pc1⟩
      obtain ⟨h1, h2⟩ := compOk_pair (hoe ▸ compileOp_ok o pc)
      rcases hre : compile_elements rest pc1 with ⟨r, pc2⟩
      obtain ⟨h3, h4⟩ := compOk_pair (hre ▸ compile_elements_ok rest pc1)
      simp only [compile_elements, hoe, hre]
      refine compOk_pair_intro ?_ ?_
      · simp only [List.length_append]
        omega
      · intro inst hmem
        rcases List.mem_append.mp hmem with hm | hm
        · have hi := h2 inst hm
          exact ⟨hi.1, targetsLE_mono (by omega) hi.2⟩
        · exact h4 inst hm
termination_by (sizeOf es, 0)
decreasing_by all_goals (simp_wf; omega)

end

/-- Every compiled program passes `progOk`. -/
theorem compile_regex_progOk {T : Type} (es : List (OpElem T)) :
    progOk (compile_regex es) = true := by
  rcases hbe : compile_elements es 0 with ⟨body, pcF⟩
  obtain ⟨h1, h2⟩ := compOk_pair (hbe ▸ compile_elements_ok es 0)
  unfold compile_regex progOk
  rw [hbe]
  simp only [Bool.and_eq_true]
  refine ⟨⟨?_, ?_⟩, ?_⟩
  · have h0 : body.countP isMatchI = 0 := by
      rw [List.countP_eq_zero]
      intro inst hm
      simp [(h2 inst hm).1]
    have hone : List.countP isMatchI [(Inst.Match : Inst T)] = 1 := by
      simp [List.countP_cons, isMatchI]
    rw [List.countP_append, h0, hone]
    simp
  · rw [List.getLast?_concat]
    rfl
  · rw [List.all_eq_true]
    intro inst hm
    rcases List.mem_append.mp hm with hm2 | hm2
    · have hi := (h2 inst hm2).2
      refine targetsLE_mono ?_ hi
      simp only [List.length_append, List.length_cons, List.length_nil]
      omega
    · simp only [List.mem_singleton] at hm2
      subst hm2
      rfl

theorem progOk_last {T : Type} {prog : List (Inst T)} (h : progOk prog = true) :
    prog.get? (prog.length - 1) = some Inst.Match := by
  unfold progOk at h
  simp only [Bool.and_eq_true] at h
  obtain ⟨⟨_, hlast⟩, _⟩ := h
  cases hl : prog.getLast? with
  | none => rw [hl] at hlast; exact absurd hlast (by simp)
  | some inst =>
    rw [hl] at hlast
    cases inst <;> simp [isMatchI] at hlast
    rw [← List.getLast?_eq_get?]
    exact hl

theorem progOk_targets {T : Type} {prog : List (Inst T)} (h : progOk prog = true)
    {pc : Nat} {inst : Inst T} (hg : prog.get? pc = some inst) :
    targetsLE (prog.length - 1) inst = true := by
  unfold progOk at h
  simp only [Bool.and_eq_true] at h
  exact List.all_eq_true.mp h.2 inst (List.get?_mem hg)

/-- One safe micro-step: with a `Match`-terminated program whose targets
are in range, a frame whose positions are all in range never reads out of
bounds, and every frame or next-list it produces is again in range. -/
theorem vmStep1_safe {T : Type} {prog : List (Inst T)} {uEq : T → T → Bool}
    {item : Option T} {s : VmFrame}
    (hM : prog.get? (prog.length - 1) = some Inst.Match)
    (hT : ∀ pc inst, prog.get? pc = some inst → targetsLE (prog.length - 1) inst = true)
    (hcs : ∀ pc ∈ s.cs, pc < prog.length)
    (hns : ∀ pc ∈ s.ns, pc < prog.length) :
    vmStep1 prog uEq item s ≠ .oob ∧
    (∀ s', vmStep1 prog uEq item s = .cont s' →
      (∀ pc ∈ s'.cs, pc < prog.length) ∧ (∀ pc ∈ s'.ns, pc < prog.length)) ∧
    (∀ ns, vmStep1 prog uEq item s = .done ns → ∀ pc ∈ ns, pc < prog.length) := by
  unfold vmStep1
  by_cases hi : s.i < s.cs.length
  swap
  · rw [dif_neg hi]
    refine ⟨by simp, by intro s' h; exact absurd h (by simp), ?_⟩
    intro ns h
    cases h
    exact hns
  rw [dif_pos hi]
  set pc := s.cs.get ⟨s.i, hi⟩ with hpcdef
  have hpcl : pc < prog.length := hcs pc (List.get_mem _ _ _)
  cases hg : prog.get? pc with
  | none =>
    exact absurd hpcl (by simpa using List.get?_eq_none.mp hg)
  | some inst =>
    have hsucc : isMatchI inst = false → pc + 1 < prog.length := by
      intro hnm
      rcases Nat.lt_or_ge pc (prog.length - 1) with hlt | hge
      · omega
      · have : pc = prog.length - 1 := by omega
        rw [this, hM] at hg
        cases hg
        simp [isMatchI] at hnm
    have hnsx : ∀ x, x < prog.length → ∀ q ∈ s.ns ++ [x], q < prog.length := by
      intro x hx q hq
      rcases List.mem_append.mp hq with hq' | hq'
      · exact hns q hq'
      · simp at hq'; omega
    cases inst with
    | Unit u =>
      cases item with
      | none =>
        simp only [vmDispatch, hg]
        exact ⟨by simp, by intro s' h; cases h; exact ⟨hcs, hns⟩, by intro ns h; cases h⟩
      | some it =>
        simp only [vmDispatch, hg]
        split
        · refine ⟨by simp, ?_, by intro ns h; cases h⟩
          intro s' h
          cases h
          exact ⟨hcs, hnsx _ (hsucc rfl)⟩
        · exact ⟨by simp, by intro s' h; cases h; exact ⟨hcs, hns⟩, by intro ns h; cases h⟩
    | UnitList us =>
      cases item with
      | none =>
        simp only [vmDispatch, hg]
        exact ⟨by simp, by intro s' h; cases h; exact ⟨hcs, hns⟩, by intro ns h; cases h⟩
      | some it =>
        simp only [vmDispatch, hg]
        split
        · refine ⟨by simp, ?_, by intro ns h; cases h⟩
          intro s' h
          cases h
          exact ⟨hcs, hnsx _ (hsucc rfl)⟩
        · exact ⟨by simp, by intro s' h; cases h; exact ⟨hcs, hns⟩, by intro ns h; cases h⟩
    | AnyUnit =>
      simp only [vmDispatch, hg]
      refine ⟨by simp, ?_, by intro ns h; cases h⟩
      intro s' h
      cases h
      exact ⟨hcs, hnsx _ (hsucc rfl)⟩
    | Match =>
      simp only [vmDispatch, hg]
      exact ⟨by simp, by intro s' h; exact absurd h (by simp), by intro ns h; cases h⟩
    | Jump g =>
      simp only [vmDispatch, hg]
      refine ⟨by simp, ?_, by intro ns h; cases h⟩
      intro s' h
      cases h
      have hgl : g ≤ prog.length - 1 := by
        have := hT pc _ hg
        simpa [targetsLE] using this
      refine ⟨?_, hns⟩
      intro q hq
      rcases List.mem_append.mp hq with hq' | hq'
      · exact hcs q hq'
      · simp at hq'; omega
    | Split x y =>
      simp only [vmDispatch, hg]
      refine ⟨by simp, ?_, by intro ns h; cases h⟩
      intro s' h
      cases h
      have hxy : x ≤ prog.length - 1 ∧ y ≤ prog.length - 1 := by
        have := hT pc _ hg
        simpa [targetsLE] using this
      refine ⟨?_, hns⟩
      intro q hq
      rcases List.mem_append.mp hq with hq' | hq'
      · exact hcs q hq'
      · simp at hq'
        rcases hq' with h' | h' <;> omega

/-- The fuelled inner loop never reads out of bounds and hands back an
in-range next list. -/
theorem vmRun_safe {T : Type} {prog : List (Inst T)} {uEq : T → T → Bool}
    {item : Option T}
    (hM : prog.get? (prog.length - 1) = some Inst.Match)
    (hT : ∀ pc inst, prog.get? pc = some inst → targetsLE (prog.length - 1) inst = true) :
    ∀ fuel s, (∀ pc ∈ s.cs, pc < prog.length) → (∀ pc ∈ s.ns, pc < prog.length) →
      vmRun prog uEq item fuel s ≠ .oob ∧
      (∀ ns, vmRun prog uEq item fuel s = .next ns → ∀ pc ∈ ns, pc < prog.length) := by
  intro fuel
  induction fuel with
  | zero =>
    intro s _ _
    exact ⟨by simp [vmRun], by intro ns h; simp [vmRun] at h⟩
  | succ n ih =>
    intro s hcs hns
    obtain ⟨hnoob, hcont, hdone⟩ := @vmStep1_safe T prog uEq item s hM hT hcs hns
    rw [vmRun]
    cases hstep : vmStep1 prog uEq item s with
    | cont s' =>
      obtain ⟨hcs', hns'⟩ := hcont s' hstep
      exact ih s' hcs' hns'
    | matched => exact ⟨by simp, by intro ns h; simp at h⟩
    | oob => exact absurd hstep hnoob
    | done ns =>
      refine ⟨by simp, ?_⟩
      intro ns' h
      simp only [] at h
      cases h
      exact hdone ns hstep

/-- The whole VM run never reads out of bounds. -/
theorem thompsonVmAux_safe {T : Type} {prog : List (Inst T)} {uEq : T → T → Bool}
    {fuel : Nat}
    (hM : prog.get? (prog.length - 1) = some Inst.Match)
    (hT : ∀ pc inst, prog.get? pc = some inst → targetsLE (prog.length - 1) inst = true) :
    ∀ items cs, (∀ pc ∈ cs, pc < prog.length) →
      thompsonVmAux prog uEq fuel items cs ≠ .oob := by
  intro items
  induction items with
  | nil => intro cs _; simp [thompsonVmAux]
  | cons item rest ih =>
    intro cs hcs
    rw [thompsonVmAux]
    obtain ⟨hnoob, hnext⟩ :=
      @vmRun_safe T prog uEq item hM hT fuel ⟨cs, 0, []⟩ hcs (by intro pc h; simp at h)
    cases hrun : vmRun prog uEq item fuel ⟨cs, 0, []⟩ with
    | matched => simp
    | oob => exact absurd hrun hnoob
    | noFuel => simp
    | next ns => exact ih ns (hnext ns hrun)

/-- C10: for every operator sequence, the compiled program holds exactly
one `Match`, as the final instruction, with every `Jump`/`Split` target a
valid index (`progOk`), and consequently `thompson_vm` never reads an
instruction outside the program, whatever the input and fuel. -/
theorem compile_regex_closed {T : Type} (es : List (OpElem T)) (uEq : T → T → Bool)
    (seq : List T) (fuel : Nat) :
    progOk (compile_regex es) = true ∧
    thompson_vm fuel (compile_regex es) seq uEq ≠ .oob := by
  have hok := compile_regex_progOk es
  refine ⟨hok, ?_⟩
  have hlen : 0 < (compile_regex es).length := by
    unfold compile_regex
    simp
  exact thompsonVmAux_safe (progOk_last hok) (fun pc inst hg => progOk_targets hok hg)
    _ [0] (by intro pc h; simp at h; omega)

/-! ## Tree pattern algebra and canonical normal form (`tree.py`)

A `Pat` is a tree-pattern object: `leaf` covers bare elements and
`Op`-wrapped elements (opaque to the rewriting), `Branch` an ordered
chain, and the three `Fork` kinds carry the `loc` scope index (which the
pattern equality of `Tree.__eq__` never compares).  The Python `Fork`
constructor wraps non-`Tree` members in `Branch`; `forkWrap` is that
wrapping, applied wherever a constructor runs. -/

inductive Pat (T : Type) where
  | leaf (t : T)
  | Branch (es : List (Pat T))
  | And (loc : Nat) (es : List (Pat T))
  | Then (loc : Nat) (es : List (Pat T))
  | Or (loc : Nat) (es : List (Pat T))

def isLeaf {T : Type} : Pat T → Bool
  | .leaf _ => true
  | _ => false

def isOrP {T : Type} : Pat T → Bool
  | .Or _ _ => true
  | _ => false

/-- The two `Fork` kinds whose `canonical_nf` is `Fork.canonical_nf`
(`Or` overrides it). -/
inductive ForkKind where
  | kAnd
  | kThen
  deriving DecidableEq

def mkFork {T : Type} : ForkKind → Nat → List (Pat T) → Pat T
  | .kAnd, loc, es => .And loc es
  | .kThen, loc, es => .Then loc es

/-- `Fork.__init__`: wrap each non-`Tree` member in a `Branch`. -/
def forkWrap {T : Type} (es : List (Pat T)) : List (Pat T) :=
  es.map (fun e => if isLeaf e then .Branch [e] else e)

/-- `flat(t, elems, loc)` for `t` one of `And`/`Then`: splice the members
of a nested fork of the same kind and the same `loc`. -/
def flatSame {T : Type} (k : ForkKind) (loc : Nat) (es : List (Pat T)) : List (Pat T) :=
  es.flatMap (fun e =>
    match k, e with
    | .kAnd, .And l s => if l = loc then s else [e]
    | .kThen, .Then l s => if l = loc then s else [e]
    | _, _ => [e])

/-- `flat(Or, elems, loc)`. -/
def flatOr {T : Type} (loc : Nat) (es : List (Pat T)) : List (Pat T) :=
  es.flatMap (fun e =>
    match e with
    | .Or l s => if l = loc then s else [e]
    | _ => [e])

/-- `itertools.product`, leftmost factor varying slowest. -/
def listProd {α : Type} : List (List α) → List (List α)
  | [] => [[]]
  | l :: ls => l.flatMap (fun x => (listProd ls).map (fun xs => x :: xs))

/-- `Fork._disjunctive_normalise(loc)`: splat each `Or` member into its
alternatives, take the cartesian product, and rebuild (and re-flatten)
one fork of the original kind per combination. -/
def disjArms {T : Type} (k : ForkKind) (loc : Nat) (es : List (Pat T)) : List (Pat T) :=
  (listProd (es.map (fun e =>
    match e with
    | .Or _ s => s
    | _ => [e]))).map
    (fun combo => mkFork k loc (forkWrap (flatSame k loc combo)))

mutual

/-- `canonical_nf(loc, *elems)` of `tree.py`, by class:
`Branch.canonical_nf` recurses into a `Tree` tail (growing the prefix and
the scope index) or prepends the prefix; `Fork.canonical_nf` collapses a
singleton, normalises the members, flattens same-kind/same-loc nesting,
and distributes over any `Or` member; `Or.canonical_nf` collapses a
singleton or flattens nested `Or` at loc `0`. -/
def cnf {T : Type} : Pat T → Nat → List (Pat T) → Pat T
  | .leaf t, _, _ => .leaf t
  | .Branch es, loc, pre => cnfBranch es loc pre
  | .And _ es, loc, pre => cnfFork .kAnd es loc pre
  | .Then _ es, loc, pre => cnfFork .kThen es loc pre
  | .Or _ es, loc, pre =>
    match es with
    | [e] => cnf e loc pre
    | other => .Or 0 (forkWrap (flatOr 0 (cnfList other loc pre)))
termination_by p _ _ => (sizeOf p, 1)
decreasing_by
  all_goals simp_wf
  all_goals apply Prod.Lex.left
  all_goals omega

/-- `Branch.canonical_nf`: the unpacking `*rest, last = self` is rendered
by peeling the leading members into the prefix (each bumps the scope
index by one, matching `loc + len(rest)`); a `Tree` tail is recursed
into, a leaf tail rebuilds the branch with the prefix prepended
(`self[:0] = elems`). -/
def cnfBranch {T : Type} : List (Pat T) → Nat → List (Pat T) → Pat T
  | [], _, pre => .Branch pre
  | [last], loc, pre =>
    if isLeaf last then .Branch (pre ++ [last])
    else cnf last loc pre
  | e :: rest, loc, pre => cnfBranch rest (loc + 1) (pre ++ [e])
termination_by es _ _ => (sizeOf es, 0)
decreasing_by
  all_goals simp_wf
  all_goals apply Prod.Lex.left
  all_goals omega

/-- `Fork.canonical_nf` for `And`/`Then`. -/
def cnfFork {T : Type} (k : ForkKind) (es : List (Pat T)) (loc : Nat)
    (pre : List (Pat T)) : Pat T :=
  match es with
  | [e] => cnf e loc pre
  | other =>
    let merged := forkWrap (flatSame k loc (cnfList other loc pre))
    if merged.any isOrP then .Or 0 (forkWrap (disjArms k loc merged))
    else mkFork k loc merged
termination_by (sizeOf es, 2)
decreasing_by
  all_goals simp_wf
  all_goals first
    | (apply Prod.Lex.right; omega)
    | (apply Prod.Lex.left; omega)

/-- Normalise each member with the same scope and prefix. -/
def cnfList {T : Type} : List (Pat T) → Nat → List (Pat T) → List (Pat T)
  | [], _, _ => []
  | e :: rest, loc, pre => cnf e loc pre :: cnfList rest loc pre
termination_by es _ _ => (sizeOf es, 0)
decreasing_by
  all_goals simp_wf
  all_goals (apply Prod.Lex.left; omega)

end

mutual

/-- `Tree.__eq__`: same concrete class and pairwise-equal members
(`zip_longest` makes unequal lengths unequal); `loc` and `id` are never
compared; leaves compare through the equality callback. -/
def patEq {T : Type} (eqT : T → T → Bool) : Pat T → Pat T → Bool
  | .leaf a, .leaf b => eqT a b
  | .Branch as, .Branch bs => patEqList eqT as bs
  | .And _ as, .And _ bs => patEqList eqT as bs
  | .Then _ as, .Then _ bs => patEqList eqT as bs
  | .Or _ as, .Or _ bs => patEqList eqT as bs
  | _, _ => false
termination_by a _ => (sizeOf a, 1)
decreasing_by
  all_goals simp_wf
  all_goals (apply Prod.Lex.left; omega)

def patEqList {T : Type} (eqT : T → T → Bool) : List (Pat T) → List (Pat T) → Bool
  | [], [] => true
  | a :: as, b :: bs => patEq eqT a b && patEqList eqT as bs
  | _, _ => false
termination_by as _ => (sizeOf as, 0)
decreasing_by
  all_goals simp_wf
  all_goals (apply Prod.Lex.left; omega)

end

/-! ### Shape predicates on patterns -/

mutual

/-- No `Or` node anywhere in the subtree. -/
def noOrP {T : Type} : Pat T → Bool
  | .leaf _ => true
  | .Branch es => noOrList es
  | .And _ es => noOrList es
  | .Then _ es => noOrList es
  | .Or _ _ => false
termination_by p => (sizeOf p, 1)
decreasing_by
  all_goals simp_wf
  all_goals (apply Prod.Lex.left; omega)

def noOrList {T : Type} : List (Pat T) → Bool
  | [] => true
  | e :: rest => noOrP e && noOrList rest
termination_by es => (sizeOf es, 0)
decreasing_by
  all_goals simp_wf
  all_goals (apply Prod.Lex.left; omega)

end

/-- Claim C4's wording of \"at most one `Or`, only at the outermost
level\": an `Or` root has `Or`-free members; any other root is entirely
`Or`-free. -/
def singleOrTop {T : Type} (p : Pat T) : Bool :=
  match p with
  | .Or _ arms => noOrList arms
  | r => noOrP r

/-- Claim C4's child condition on a fork of kind `k`: each child is a
`Branch` or a fork of the same kind. -/
def claimedChild {T : Type} (k : ForkKind) : Pat T → Bool
  | .Branch _ => true
  | .And _ _ => k = .kAnd
  | .Then _ _ => k = .kThen
  | _ => false

mutual

/-- Every `And`/`Then` node's children are `Branch` nodes or same-kind
forks, throughout the tree. -/
def claimedKids {T : Type} : Pat T → Bool
  | .leaf _ => true
  | .Branch es => claimedKidsList es
  | .And _ es => es.all (claimedChild .kAnd) && claimedKidsList es
  | .Then _ es => es.all (claimedChild .kThen) && claimedKidsList es
  | .Or _ es => claimedKidsList es
termination_by p => (sizeOf p, 1)
decreasing_by
  all_goals simp_wf
  all_goals (apply Prod.Lex.left; omega)

def claimedKidsList {T : Type} : List (Pat T) → Bool
  | [] => true
  | e :: rest => claimedKids e && claimedKidsList rest
termination_by es => (sizeOf es, 0)
decreasing_by
  all_goals simp_wf
  all_goals (apply Prod.Lex.left; omega)

end

/-- The disjunctive-normal-form shape exactly as claim C4 words it. -/
def claimedDNF {T : Type} (p : Pat T) : Bool :=
  singleOrTop p && claimedKids p

/-- `And('A', Branch('b', And('C', 'D')))` as the Python constructors
build it (leaves wrapped in `Branch`). -/
def pBad : Pat Char :=
  .And 0 [.Branch [.leaf 'A'],
    .Branch [.leaf 'b', .And 0 [.Branch [.leaf 'C'], .Branch [.leaf 'D']]]]

/-- C3 counterexample: `canonical_nf` is not idempotent.  One pass on
`pBad` keeps the inner `And` nested at scope 1; a second pass
renormalises it to scope 0 and then splices it into the outer `And`, so
the results differ under the pattern equality (2 members vs 3). -/
theorem canonical_nf_not_idempotent :
    patEq chEq (cnf (cnf pBad 0 []) 0 []) (cnf pBad 0 []) = false ∧
    cnf pBad 0 [] = .And 0 [.Branch [.leaf 'A'],
      .And 1 [.Branch [.leaf 'b', .leaf 'C'], .Branch [.leaf 'b', .leaf 'D']]] ∧
    cnf (cnf pBad 0 []) 0 [] = .And 0 [.Branch [.leaf 'A'],
      .Branch [.leaf 'b', .leaf 'C'], .Branch [.leaf 'b', .leaf 'D']] := by
  refine ⟨?_, ?_, ?_⟩ <;>
    simp [pBad, cnf, cnfBranch, cnfFork, cnfList, flatSame, forkWrap, isLeaf,
      mkFork, isOrP, disjArms, flatOr, listProd, patEq, patEqList, chEq]

/-- `And('A', Then('B', 'C'))` as the Python constructors build it. -/
def pMixed : Pat Char :=
  .And 0 [.Branch [.leaf 'A'], .Then 0 [.Branch [.leaf 'B'], .Branch [.leaf 'C']]]

/-- C4 counterexample: after `canonical_nf`, an `And` may keep a `Then`
child — neither a `Branch` nor a same-kind fork — so the claimed
invariant fails on `And('A', Then('B','C'))`. -/
theorem canonical_nf_not_claimed_dnf :
    claimedDNF (cnf pMixed 0 []) = false ∧
    cnf pMixed 0 [] = .And 0 [.Branch [.leaf 'A'],
      .Then 0 [.Branch [.leaf 'B'], .Branch [.leaf 'C']]] := by
  refine ⟨?_, ?_⟩ <;>
    simp [pMixed, cnf, cnfBranch, cnfFork, cnfList, flatSame, forkWrap, isLeaf,
      mkFork, isOrP, disjArms, flatOr, listProd, claimedDNF, singleOrTop,
      claimedKids, claimedKidsList, claimedChild, noOrP, noOrList]

/-! ### Well-formedness: what the Python constructors guarantee -/

/-- All members but the last are leaves (`Branch` may hold a nested
`Tree` only at the end). -/
def leafInit {T : Type} : List (Pat T) → Bool
  | [] => true
  | [_] => true
  | e :: r :: rest => isLeaf e && leafInit (r :: rest)

mutual

/-- A structurally valid `Tree` object: `Branch` is non-empty with leaves
everywhere but the tail; forks are non-empty with `Tree` children (the
constructor wraps bare leaves).  A bare leaf is not a `Tree`. -/
def wfT {T : Type} : Pat T → Bool
  | .leaf _ => false
  | .Branch es => !es.isEmpty && leafInit es && wfElems es
  | .And _ es => !es.isEmpty && wfForkElems es
  | .Then _ es => !es.isEmpty && wfForkElems es
  | .Or _ es => !es.isEmpty && wfForkElems es
termination_by p => (sizeOf p, 1)
decreasing_by
  all_goals simp_wf
  all_goals (apply Prod.Lex.left; omega)

/-- `Branch` members: leaves, or valid trees. -/
def wfElems {T : Type} : List (Pat T) → Bool
  | [] => true
  | e :: rest => (isLeaf e || wfT e) && wfElems rest
termination_by es => (sizeOf es, 0)
decreasing_by
  all_goals simp_wf
  all_goals (apply Prod.Lex.left; omega)

/-- Fork members: valid trees, never bare leaves. -/
def wfForkElems {T : Type} : List (Pat T) → Bool
  | [] => true
  | e :: rest => (!isLeaf e && wfT e) && wfForkElems rest
termination_by es => (sizeOf es, 0)
decreasing_by
  all_goals simp_wf
  all_goals (apply Prod.Lex.left; omega)

end

/-- Shape invariant carried through the normalisation: an `Or` result has
scope `0` and `Or`-free members; any other result is `Or`-free. -/
def dnfShapeB {T : Type} (p : Pat T) : Bool :=
  match p with
  | .Or l arms => decide (l = 0) && noOrList arms
  | r => noOrP r

theorem noOrList_iff {T : Type} {l : List (Pat T)} :
    noOrList l = true ↔ ∀ e ∈ l, noOrP e = true := by
  induction l with
  | nil => simp [noOrList]
  | cons e rest ih => simp [noOrList, ih]

theorem wfForkElems_iff {T : Type} {l : List (Pat T)} :
    wfForkElems l = true ↔ ∀ e ∈ l, isLeaf e = false ∧ wfT e = true := by
  induction l with
  | nil => simp [wfForkElems]
  | cons e rest ih => simp [wfForkElems, ih]

theorem wfElems_iff {T : Type} {l : List (Pat T)} :
    wfElems l = true ↔ ∀ e ∈ l, isLeaf e = true ∨ wfT e = true := by
  induction l with
  | nil => simp [wfElems]
  | cons e rest ih => simp [wfElems, ih]

theorem isLeaf_false_of_wfT {T : Type} {p : Pat T} (h : wfT p = true) :
    isLeaf p = false := by
  cases p <;> simp [isLeaf] at h ⊢
  exact absurd h (by simp [wfT])

theorem leafInit_of_all {T : Type} {l : List (Pat T)} (h : l.all isLeaf = true) :
    leafInit l = true := by
  induction l with
  | nil => rfl
  | cons e rest ih =>
    cases rest with
    | nil => rfl
    | cons r rs =>
      rw [List.all_cons, Bool.and_eq_true] at h
      simp only [leafInit, Bool.and_eq_true]
      exact ⟨h.1, ih h.2⟩

theorem noOrP_of_isLeaf {T : Type} {p : Pat T} (h : isLeaf p = true) :
    noOrP p = true := by
  cases p
  case leaf => simp [noOrP]
  all_goals simp [isLeaf] at h

theorem noOrList_of_all_leaf {T : Type} {l : List (Pat T)} (h : l.all isLeaf = true) :
    noOrList l = true := by
  rw [noOrList_iff]
  intro e he
  exact noOrP_of_isLeaf (by rw [List.all_eq_true] at h; exact h e he)

theorem forkWrap_eq_self {T : Type} : ∀ {l : List (Pat T)},
    (∀ e ∈ l, isLeaf e = false) → forkWrap l = l
  | [], _ => rfl
  | e :: rest, h => by
    have he : isLeaf e = false := h e (by simp)
    have hr : forkWrap rest = rest :=
      forkWrap_eq_self (fun x hx => h x (by simp [hx]))
    unfold forkWrap at hr ⊢
    simp [List.map_cons, he, hr]

theorem dnfShapeB_of_noOr {T : Type} {p : Pat T} (h : noOrP p = true) :
    dnfShapeB p = true := by
  cases p <;> simpa [dnfShapeB, noOrP] using h

theorem noOrP_not_or {T : Type} {p : Pat T} (h : noOrP p = true) :
    isOrP p = false := by
  cases p <;> simp [isOrP, noOrP] at h ⊢

theorem listProd_length {α : Type} {ls : List (List α)} {combo : List α}
    (h : combo ∈ listProd ls) : combo.length = ls.length := by
  induction ls generalizing combo with
  | nil => simp [listProd] at h; simp [h]
  | cons l rest ih =>
    simp only [listProd, List.mem_flatMap, List.mem_map] at h
    obtain ⟨x, _, xs, hxs, rfl⟩ := h
    simp [ih hxs]

theorem listProd_ne_nil {α : Type} {ls : List (List α)}
    (h : ∀ l ∈ ls, l ≠ []) : listProd ls ≠ [] := by
  induction ls with
  | nil => simp [listProd]
  | cons l rest ih =>
    simp only [listProd]
    have h1 : l ≠ [] := h l (by simp)
    have h2 : listProd rest ≠ [] := ih (fun x hx => h x (by simp [hx]))
    cases l with
    | nil => exact absurd rfl h1
    | cons a as =>
      simp only [List.flatMap_cons]
      intro hc
      rcases List.append_eq_nil.mp hc with ⟨hm, _⟩
      exact h2 (by simpa using hm)

theorem mem_of_mem_listProd {α : Type} {ls : List (List α)} {combo : List α}
    (h : combo ∈ listProd ls) : ∀ x ∈ combo, ∃ l ∈ ls, x ∈ l := by
  induction ls generalizing combo with
  | nil => simp [listProd] at h; simp [h]
  | cons l rest ih =>
    simp only [listProd, List.mem_flatMap, List.mem_map] at h
    obtain ⟨a, ha, xs, hxs, rfl⟩ := h
    intro x hx
    rcases List.mem_cons.mp hx with rfl | hx'
    · exact ⟨l, by simp, ha⟩
    · obtain ⟨l', hl', hxl'⟩ := ih hxs x hx'
      exact ⟨l', by simp [hl'], hxl'⟩

theorem flatMap_ne_nil {α β : Type} {l : List α} {f : α → List β}
    (hl : l ≠ []) (hf : ∀ e ∈ l, f e ≠ []) : l.flatMap f ≠ [] := by
  cases l with
  | nil => exact absurd rfl hl
  | cons a rest =>
    simp only [List.flatMap_cons]
    intro hc
    rcases List.append_eq_nil.mp hc with ⟨h1, _⟩
    exact hf a (by simp) h1

theorem mkFork_noOr {T : Type} {k : ForkKind} {loc : Nat} {l : List (Pat T)}
    (h : noOrList l = true) : noOrP (mkFork k loc l) = true := by
  cases k <;> simpa [mkFork, noOrP] using h

theorem mkFork_wf {T : Type} {k : ForkKind} {loc : Nat} {l : List (Pat T)}
    (hne : l ≠ []) (h : wfForkElems l = true) : wfT (mkFork k loc l) = true := by
  cases k <;> simp [mkFork, wfT, h, hne]

theorem mkFork_not_leaf {T : Type} {k : ForkKind} {loc : Nat} {l : List (Pat T)} :
    isLeaf (mkFork k loc l) = false := by
  cases k <;> simp [mkFork, isLeaf]

theorem mkFork_shape_of_noOr {T : Type} {k : ForkKind} {loc : Nat} {l : List (Pat T)}
    (h : noOrList l = true) : dnfShapeB (mkFork k loc l) = true :=
  dnfShapeB_of_noOr (mkFork_noOr h)

theorem noOr_of_shape_not_or {T : Type} {a : Pat T}
    (h : dnfShapeB a = true) (hn : isOrP a = false) : noOrP a = true := by
  cases a <;> simp [dnfShapeB, isOrP, noOrP] at h hn ⊢ <;> assumption

/-- Members of `flat(Or, norms, 0)` when every member of `norms` is a
well-formed normalisation result. -/
theorem flatOr_good {T : Type} {norms : List (Pat T)}
    (h : ∀ r ∈ norms, dnfShapeB r = true ∧ wfT r = true) :
    ∀ a ∈ flatOr 0 norms, noOrP a = true ∧ wfT a = true ∧ isLeaf a = false := by
  intro a ha
  unfold flatOr at ha
  rw [List.mem_flatMap] at ha
  obtain ⟨r, hr, har⟩ := ha
  obtain ⟨hshape, hwf⟩ := h r hr
  cases r with
  | Or l s =>
    simp only [dnfShapeB, Bool.and_eq_true, decide_eq_true_eq] at hshape
    obtain ⟨hl, hnoor⟩ := hshape
    subst hl
    simp only [if_pos rfl] at har
    rw [wfT, Bool.and_eq_true] at hwf
    have hm := wfForkElems_iff.mp hwf.2 a har
    exact ⟨noOrList_iff.mp hnoor a har, hm.2, hm.1⟩
  | leaf t => rw [wfT] at hwf; exact absurd hwf (by simp)
  | Branch es =>
    simp only [List.mem_singleton] at har
    subst har
    exact ⟨by simpa [dnfShapeB] using hshape, hwf, isLeaf_false_of_wfT hwf⟩
  | And l es =>
    simp only [List.mem_singleton] at har
    subst har
    exact ⟨by simpa [dnfShapeB] using hshape, hwf, isLeaf_false_of_wfT hwf⟩
  | Then l es =>
    simp only [List.mem_singleton] at har
    subst har
    exact ⟨by simpa [dnfShapeB] using hshape, hwf, isLeaf_false_of_wfT hwf⟩

theorem flatOr_parts_ne_nil {T : Type} {norms : List (Pat T)}
    (h : ∀ r ∈ norms, dnfShapeB r = true ∧ wfT r = true) (hne : norms ≠ []) :
    flatOr 0 norms ≠ [] := by
  unfold flatOr
  refine flatMap_ne_nil hne ?_
  intro r hr
  obtain ⟨hshape, hwf⟩ := h r hr
  cases r with
  | Or l s =>
    rw [wfT, Bool.and_eq_true] at hwf
    have hs : s ≠ [] := by simpa using hwf.1
    show ¬(if l = 0 then s else [Pat.Or l s]) = []
    split <;> simp [hs]
  | leaf t => simp
  | Branch es => simp
  | And l es => simp
  | Then l es => simp

/-- Members of `flat(t, norms, loc)` for a fork kind `t`, when every
member of `norms` is a well-formed normalisation result. -/
theorem flatSame_good {T : Type} {k : ForkKind} {loc : Nat} {norms : List (Pat T)}
    (h : ∀ r ∈ norms, dnfShapeB r = true ∧ wfT r = true) :
    ∀ a ∈ flatSame k loc norms,
      dnfShapeB a = true ∧ wfT a = true ∧ isLeaf a = false := by
  intro a ha
  unfold flatSame at ha
  rw [List.mem_flatMap] at ha
  obtain ⟨r, hr, har⟩ := ha
  obtain ⟨hshape, hwf⟩ := h r hr
  have hkeep : a = r → dnfShapeB a = true ∧ wfT a = true ∧ isLeaf a = false := by
    rintro rfl
    exact ⟨hshape, hwf, isLeaf_false_of_wfT hwf⟩
  have hsplice : ∀ {l : Nat} {s : List (Pat T)}, r = .And l s ∨ r = .Then l s → a ∈ s →
      dnfShapeB a = true ∧ wfT a = true ∧ isLeaf a = false := by
    intro l s hor has
    have hno : noOrList s = true := by
      rcases hor with rfl | rfl
      · simpa [dnfShapeB, noOrP] using hshape
      · simpa [dnfShapeB, noOrP] using hshape
    have hfe : wfForkElems s = true := by
      rcases hor with rfl | rfl
      · rw [wfT, Bool.and_eq_true] at hwf; exact hwf.2
      · rw [wfT, Bool.and_eq_true] at hwf; exact hwf.2
    have hm := wfForkElems_iff.mp hfe a has
    exact ⟨dnfShapeB_of_noOr (noOrList_iff.mp hno a has), hm.2, hm.1⟩
  cases k with
  | kAnd =>
    cases r with
    | And l s =>
      simp only [] at har
      by_cases hl : l = loc
      · rw [if_pos hl] at har
        exact hsplice (Or.inl rfl) har
      · rw [if_neg hl] at har
        simp only [List.mem_singleton] at har
        exact hkeep har
    | leaf t => simp only [List.mem_singleton] at har; exact hkeep har
    | Branch es => simp only [List.mem_singleton] at har; exact hkeep har
    | Then l s => simp only [List.mem_singleton] at har; exact hkeep har
    | Or l s => simp only [List.mem_singleton] at har; exact hkeep har
  | kThen =>
    cases r with
    | Then l s =>
      simp only [] at har
      by_cases hl : l = loc
      · rw [if_pos hl] at har
        exact hsplice (Or.inr rfl) har
      · rw [if_neg hl] at har
        simp only [List.mem_singleton] at har
        exact hkeep har
    | leaf t => simp only [List.mem_singleton] at har; exact hkeep har
    | Branch es => simp only [List.mem_singleton] at har; exact hkeep har
    | And l s => simp only [List.mem_singleton] at har; exact hkeep har
    | Or l s => simp only [List.mem_singleton] at har; exact hkeep har

theorem flatSame_parts_ne_nil {T : Type} {k : ForkKind} {loc : Nat}
    {norms : List (Pat T)}
    (h : ∀ r ∈ norms, dnfShapeB r = true ∧ wfT r = true) (hne : norms ≠ []) :
    flatSame k loc norms ≠ [] := by
  unfold flatSame
  refine flatMap_ne_nil hne ?_
  intro r hr
  obtain ⟨_, hwf⟩ := h r hr
  cases k with
  | kAnd =>
    cases r with
    | And l s =>
      have hs : s ≠ [] := by rw [wfT, Bool.and_eq_true] at hwf; simpa using hwf.1
      show ¬(if l = loc then s else [Pat.And l s]) = []
      split <;> simp [hs]
    | leaf t => simp
    | Branch es => simp
    | Then l s => simp
    | Or l s => simp
  | kThen =>
    cases r with
    | Then l s =>
      have hs : s ≠ [] := by rw [wfT, Bool.and_eq_true] at hwf; simpa using hwf.1
      show ¬(if l = loc then s else [Pat.Then l s]) = []
      split <;> simp [hs]
    | leaf t => simp
    | Branch es => simp
    | And l s => simp
    | Or l s => simp

/-- Members of `flat(t, combo, loc)` when every member of `combo` is
`Or`-free and well-formed (as in the rebuilt disjuncts). -/
theorem flatSame_noOr_good {T : Type} {k : ForkKind} {loc : Nat} {combo : List (Pat T)}
    (h : ∀ x ∈ combo, noOrP x = true ∧ wfT x = true) :
    ∀ a ∈ flatSame k loc combo,
      noOrP a = true ∧ wfT a = true ∧ isLeaf a = false := by
  intro a ha
  have h' : ∀ x ∈ combo, dnfShapeB x = true ∧ wfT x = true := by
    intro x hx
    exact ⟨dnfShapeB_of_noOr (h x hx).1, (h x hx).2⟩
  obtain ⟨hshape, hwf, hleaf⟩ := flatSame_good h' a ha
  -- `a` is never an `Or`: it is either kept (then `noOrP` from `h`) or a
  -- spliced child of an `Or`-free fork.
  unfold flatSame at ha
  rw [List.mem_flatMap] at ha
  obtain ⟨r, hr, har⟩ := ha
  have hrno : noOrP r = true := (h r hr).1
  have hano : noOrP a = true := by
    cases k with
    | kAnd =>
      cases r with
      | And l s =>
        simp only [] at har
        by_cases hl : l = loc
        · rw [if_pos hl] at har
          exact noOrList_iff.mp (by simpa [noOrP] using hrno) a har
        · rw [if_neg hl] at har
          simp only [List.mem_singleton] at har
          subst har
          exact hrno
      | leaf t => simp only [List.mem_singleton] at har; subst har; exact hrno
      | Branch es => simp only [List.mem_singleton] at har; subst har; exact hrno
      | Then l s => simp only [List.mem_singleton] at har; subst har; exact hrno
      | Or l s => simp [noOrP] at hrno
    | kThen =>
      cases r with
      | Then l s =>
        simp only [] at har
        by_cases hl : l = loc
        · rw [if_pos hl] at har
          exact noOrList_iff.mp (by simpa [noOrP] using hrno) a har
        · rw [if_neg hl] at har
          simp only [List.mem_singleton] at har
          subst har
          exact hrno
      | leaf t => simp only [List.mem_singleton] at har; subst har; exact hrno
      | Branch es => simp only [List.mem_singleton] at har; subst har; exact hrno
      | And l s => simp only [List.mem_singleton] at har; subst har; exact hrno
      | Or l s => simp [noOrP] at hrno
  exact ⟨hano, hwf, hleaf⟩

theorem flatSame_noOr_ne_nil {T : Type} {k : ForkKind} {loc : Nat}
    {combo : List (Pat T)}
    (h : ∀ x ∈ combo, noOrP x = true ∧ wfT x = true) (hne : combo ≠ []) :
    flatSame k loc combo ≠ [] :=
  flatSame_parts_ne_nil
    (fun x hx => ⟨dnfShapeB_of_noOr (h x hx).1, (h x hx).2⟩) hne

/-- The splatted alternatives `(e if isinstance(e, Or) else [e])` of
`_disjunctive_normalise`: each is non-empty and all entries are `Or`-free
well-formed trees. -/
theorem splat_good {T : Type} {merged : List (Pat T)}
    (h : ∀ a ∈ merged, dnfShapeB a = true ∧ wfT a = true) :
    ∀ l ∈ merged.map (fun e =>
        match e with
        | .Or _ s => s
        | _ => [e]),
      l ≠ [] ∧ ∀ x ∈ l, noOrP x = true ∧ wfT x = true := by
  intro l hl
  rw [List.mem_map] at hl
  obtain ⟨r, hr, rfl⟩ := hl
  obtain ⟨hshape, hwf⟩ := h r hr
  cases r with
  | Or lv s =>
    simp only []
    rw [wfT, Bool.and_eq_true] at hwf
    refine ⟨by simpa using hwf.1, ?_⟩
    intro x hx
    have hno : noOrList s = true := by
      simp only [dnfShapeB, Bool.and_eq_true] at hshape
      exact hshape.2
    have hm := wfForkElems_iff.mp hwf.2 x hx
    exact ⟨noOrList_iff.mp hno x hx, hm.2⟩
  | leaf t => rw [wfT] at hwf; exact absurd hwf (by simp)
  | Branch es =>
    refine ⟨by simp, ?_⟩
    intro x hx
    simp only [List.mem_singleton] at hx
    subst hx
    exact ⟨by simpa [dnfShapeB] using hshape, hwf⟩
  | And lv es =>
    refine ⟨by simp, ?_⟩
    intro x hx
    simp only [List.mem_singleton] at hx
    subst hx
    exact ⟨by simpa [dnfShapeB] using hshape, hwf⟩
  | Then lv es =>
    refine ⟨by simp, ?_⟩
    intro x hx
    simp only [List.mem_singleton] at hx
    subst hx
    exact ⟨by simpa [dnfShapeB] using hshape, hwf⟩

/-- Every rebuilt disjunct of `_disjunctive_normalise` is an `Or`-free
well-formed fork. -/
theorem disjArms_good {T : Type} {k : ForkKind} {loc : Nat} {merged : List (Pat T)}
    (h : ∀ a ∈ merged, dnfShapeB a = true ∧ wfT a = true) (hne : merged ≠ []) :
    disjArms k loc merged ≠ [] ∧
    ∀ a ∈ disjArms k loc merged,
      noOrP a = true ∧ wfT a = true ∧ isLeaf a = false := by
  have hsplat := splat_good h
  constructor
  · unfold disjArms
    have hprod : listProd (merged.map (fun e =>
        match e with
        | .Or _ s => s
        | _ => [e])) ≠ [] :=
      listProd_ne_nil (fun l hl => (hsplat l hl).1)
    intro hc
    rw [List.map_eq_nil] at hc
    exact hprod hc
  · intro a ha
    unfold disjArms at ha
    rw [List.mem_map] at ha
    obtain ⟨combo, hcombo, rfl⟩ := ha
    have hmem : ∀ x ∈ combo, noOrP x = true ∧ wfT x = true := by
      intro x hx
      obtain ⟨l, hl, hxl⟩ := mem_of_mem_listProd hcombo x hx
      exact (hsplat l hl).2 x hxl
    have hclen : combo.length = merged.length := by
      have := listProd_length hcombo
      simpa using this
    have hcne : combo ≠ [] := by
      intro hc
      rw [hc] at hclen
      cases merged with
      | nil => exact hne rfl
      | cons m ms => simp at hclen
    have hflat := @flatSame_noOr_good T k loc combo hmem
    have hflatne : flatSame k loc combo ≠ [] := flatSame_noOr_ne_nil hmem hcne
    have hwrap : forkWrap (flatSame k loc combo) = flatSame k loc combo :=
      forkWrap_eq_self (fun e he => (hflat e he).2.2)
    rw [hwrap]
    refine ⟨mkFork_noOr ?_, mkFork_wf hflatne ?_, mkFork_not_leaf⟩
    · rw [noOrList_iff]
      intro e he
      exact (hflat e he).1
    · rw [wfForkElems_iff]
      intro e he
      exact ⟨(hflat e he).2.2, (hflat e he).2.1⟩

/-- `Or.canonical_nf`'s rebuilt result is in DNF shape and well-formed. -/
theorem orResult_good {T : Type} {norms : List (Pat T)}
    (h : ∀ r ∈ norms, dnfShapeB r = true ∧ wfT r = true) (hne : norms ≠ []) :
    dnfShapeB (Pat.Or 0 (forkWrap (flatOr 0 norms))) = true ∧
    wfT (Pat.Or 0 (forkWrap (flatOr 0 norms))) = true := by
  have hgood := flatOr_good h
  have hfne := flatOr_parts_ne_nil h hne
  have hwrap : forkWrap (flatOr 0 norms) = flatOr 0 norms :=
    forkWrap_eq_self (fun e he => (hgood e he).2.2)
  rw [hwrap]
  constructor
  · simp only [dnfShapeB, Bool.and_eq_true, decide_eq_true_eq]
    refine ⟨trivial, ?_⟩
    rw [noOrList_iff]
    intro e he
    exact (hgood e he).1
  · rw [wfT, Bool.and_eq_true]
    refine ⟨by simpa using hfne, ?_⟩
    rw [wfForkElems_iff]
    intro e he
    exact ⟨(hgood e he).2.2, (hgood e he).2.1⟩

/-- `Fork.canonical_nf`'s rebuild-merge-distribute step is in DNF shape
and well-formed. -/
theorem forkResult_good {T : Type} (k : ForkKind) (loc : Nat) (norms : List (Pat T))
    (h : ∀ r ∈ norms, dnfShapeB r = true ∧ wfT r = true) (hne : norms ≠ []) :
    dnfShapeB (if (forkWrap (flatSame k loc norms)).any isOrP = true
        then Pat.Or 0 (forkWrap (disjArms k loc (forkWrap (flatSame k loc norms))))
        else mkFork k loc (forkWrap (flatSame k loc norms))) = true ∧
    wfT (if (forkWrap (flatSame k loc norms)).any isOrP = true
        then Pat.Or 0 (forkWrap (disjArms k loc (forkWrap (flatSame k loc norms))))
        else mkFork k loc (forkWrap (flatSame k loc norms))) = true := by
  have hmemb := @flatSame_good T k loc norms h
  have hmne := @flatSame_parts_ne_nil T k loc norms h hne
  have hwrap : forkWrap (flatSame k loc norms) = flatSame k loc norms :=
    forkWrap_eq_self (fun e he => (hmemb e he).2.2)
  rw [hwrap]
  by_cases hany : (flatSame k loc norms).any isOrP = true
  · rw [if_pos hany]
    have hm : ∀ a ∈ flatSame k loc norms, dnfShapeB a = true ∧ wfT a = true := by
      intro a ha
      exact ⟨(hmemb a ha).1, (hmemb a ha).2.1⟩
    obtain ⟨hane, harms⟩ := disjArms_good hm hmne
    have hwrap2 : forkWrap (disjArms k loc (flatSame k loc norms)) =
        disjArms k loc (flatSame k loc norms) :=
      forkWrap_eq_self (fun e he => (harms e he).2.2)
    rw [hwrap2]
    constructor
    · simp only [dnfShapeB, Bool.and_eq_true, decide_eq_true_eq]
      refine ⟨trivial, ?_⟩
      rw [noOrList_iff]
      intro e he
      exact (harms e he).1
    · rw [wfT, Bool.and_eq_true]
      refine ⟨by simpa using hane, ?_⟩
      rw [wfForkElems_iff]
      intro e he
      exact ⟨(harms e he).2.2, (harms e he).2.1⟩
  · rw [if_neg hany]
    have hnoor : ∀ a ∈ flatSame k loc norms, noOrP a = true := by
      intro a ha
      have hnotor : isOrP a = false := by
        rw [List.any_eq_true] at hany
        push_neg at hany
        have := hany a ha
        simpa using this
      exact noOr_of_shape_not_or (hmemb a ha).1 hnotor
    refine ⟨mkFork_shape_of_noOr ?_, mkFork_wf hmne ?_⟩
    · rw [noOrList_iff]
      intro e he
      exact hnoor e he
    · rw [wfForkElems_iff]
      intro e he
      exact ⟨(hmemb e he).2.2, (hmemb e he).2.1⟩

mutual

/-- Main invariant of `canonical_nf`: on a well-formed tree, with a
prefix of leaves, the result is in DNF shape (`Or` only at the root,
with scope 0 and `Or`-free members) and is again a well-formed tree. -/
theorem cnf_good {T : Type} : ∀ (p : Pat T) (loc : Nat) (pre : List (Pat T)),
    wfT p = true → pre.all isLeaf = true →
    dnfShapeB (cnf p loc pre) = true ∧ wfT (cnf p loc pre) = true
  | .leaf t, loc, pre, hwf, hpre => by
    rw [wfT] at hwf
    exact absurd hwf (by simp)
  | .Branch es, loc, pre, hwf, hpre => by
    rw [wfT] at hwf
    simp only [Bool.and_eq_true] at hwf
    obtain ⟨⟨hne', hinit⟩, helems⟩ := hwf
    simp only [cnf]
    exact cnfBranch_good es loc pre (by simpa using hne') hinit helems hpre
  | .And l es, loc, pre, hwf, hpre => by
    rw [wfT] at hwf
    simp only [Bool.and_eq_true] at hwf
    obtain ⟨hne', helems⟩ := hwf
    simp only [cnf]
    exact cnfFork_good .kAnd es loc pre (by simpa using hne') helems hpre
  | .Then l es, loc, pre, hwf, hpre => by
    rw [wfT] at hwf
    simp only [Bool.and_eq_true] at hwf
    obtain ⟨hne', helems⟩ := hwf
    simp only [cnf]
    exact cnfFork_good .kThen es loc pre (by simpa using hne') helems hpre
  | .Or l [], loc, pre, hwf, hpre => by
    rw [wfT] at hwf
    simp at hwf
  | .Or l [e1], loc, pre, hwf, hpre => by
    rw [wfT] at hwf
    simp only [Bool.and_eq_true] at hwf
    simp only [cnf]
    have hm := wfForkElems_iff.mp hwf.2 e1 (by simp)
    exact cnf_good e1 loc pre hm.2 hpre
  | .Or l (e1 :: e2 :: rest2), loc, pre, hwf, hpre => by
    rw [wfT] at hwf
    simp only [Bool.and_eq_true] at hwf
    simp only [cnf]
    have hns := cnfList_good (e1 :: e2 :: rest2) loc pre hwf.2 hpre
    have hnne : cnfList (e1 :: e2 :: rest2) loc pre ≠ [] := by
      simp [cnfList]
    exact orResult_good hns hnne
termination_by p _ _ => (sizeOf p, 1)
decreasing_by
  all_goals simp_wf
  all_goals first
    | (apply Prod.Lex.right; omega)
    | (apply Prod.Lex.left; omega)

theorem cnfBranch_good {T : Type} : ∀ (es : List (Pat T)) (loc : Nat)
    (pre : List (Pat T)), es ≠ [] → leafInit es = true → wfElems es = true →
    pre.all isLeaf = true →
    dnfShapeB (cnfBranch es loc pre) = true ∧ wfT (cnfBranch es loc pre) = true
  | [], _, _, hne, _, _, _ => absurd rfl hne
  | [e1], loc, pre, hne, hinit, helems, hpre => by
    simp only [cnfBranch]
    by_cases hl : isLeaf e1 = true
    · rw [if_pos hl]
      have hall : (pre ++ [e1]).all isLeaf = true := by
        rw [List.all_append]
        simp [hpre, hl]
      constructor
      · have hno : noOrList (pre ++ [e1]) = true := noOrList_of_all_leaf hall
        simpa [dnfShapeB, noOrP] using hno
      · rw [wfT]
        simp only [Bool.and_eq_true]
        refine ⟨⟨by simp, leafInit_of_all hall⟩, ?_⟩
        rw [wfElems_iff]
        intro e he
        rw [List.all_eq_true] at hall
        exact Or.inl (hall e he)
    · rw [if_neg hl]
      have hw : wfT e1 = true := by
        rcases wfElems_iff.mp helems e1 (by simp) with h' | h'
        · exact absurd h' hl
        · exact h'
      exact cnf_good e1 loc pre hw hpre
  | e1 :: e2 :: rest2, loc, pre, hne, hinit, helems, hpre => by
    simp only [cnfBranch]
    have hinit' : isLeaf e1 = true ∧ leafInit (e2 :: rest2) = true := by
      rw [leafInit] at hinit
      simpa [Bool.and_eq_true] using hinit
    have helems' : wfElems (e2 :: rest2) = true := by
      rw [wfElems] at helems
      simp only [Bool.and_eq_true] at helems
      exact helems.2
    have hpre' : (pre ++ [e1]).all isLeaf = true := by
      rw [List.all_append]
      simp [hpre, hinit'.1]
    exact cnfBranch_good (e2 :: rest2) (loc + 1) (pre ++ [e1]) (by simp)
      hinit'.2 helems' hpre'
termination_by es _ _ => (sizeOf es, 0)
decreasing_by
  all_goals simp_wf
  all_goals first
    | (apply Prod.Lex.right; omega)
    | (apply Prod.Lex.left; omega)

theorem cnfFork_good {T : Type} : ∀ (k : ForkKind) (es : List (Pat T)) (loc : Nat)
    (pre : List (Pat T)), es ≠ [] → wfForkElems es = true →
    pre.all isLeaf = true →
    dnfShapeB (cnfFork k es loc pre) = true ∧ wfT (cnfFork k es loc pre) = true
  | _, [], _, _, hne, _, _ => absurd rfl hne
  | k, [e1], loc, pre, hne, helems, hpre => by
    simp only [cnfFork]
    have hm := wfForkElems_iff.mp helems e1 (by simp)
    exact cnf_good e1 loc pre hm.2 hpre
  | k, e1 :: e2 :: rest2, loc, pre, hne, helems, hpre => by
    simp only [cnfFork]
    have hns := cnfList_good (e1 :: e2 :: rest2) loc pre helems hpre
    have hnne : cnfList (e1 :: e2 :: rest2) loc pre ≠ [] := by
      simp [cnfList]
    exact forkResult_good k loc (cnfList (e1 :: e2 :: rest2) loc pre) hns hnne
termination_by _ es _ _ => (sizeOf es, 2)
decreasing_by
  all_goals simp_wf
  all_goals first
    | (apply Prod.Lex.right; omega)
    | (apply Prod.Lex.left; omega)

theorem cnfList_good {T : Type} : ∀ (es : List (Pat T)) (loc : Nat)
    (pre : List (Pat T)), wfForkElems es = true → pre.all isLeaf = true →
    ∀ r ∈ cnfList es loc pre, dnfShapeB r = true ∧ wfT r = true
  | [], _, _, _, _ => by
    intro r hr
    simp [cnfList] at hr
  | e :: rest, loc, pre, helems, hpre => by
    intro r hr
    simp only [cnfList, List.mem_cons] at hr
    have hm := wfForkElems_iff.mp helems e (by simp)
    have hrest : wfForkElems rest = true := by
      rw [wfForkElems] at helems
      simp only [Bool.and_eq_true] at helems
      exact helems.2
    rcases hr with rfl | hr2
    · exact cnf_good e loc pre hm.2 hpre
    · exact cnfList_good rest loc pre hrest hpre r hr2
termination_by es _ _ => (sizeOf es, 0)
decreasing_by
  all_goals simp_wf
  all_goals first
    | (apply Prod.Lex.right; omega)
    | (apply Prod.Lex.left; omega)

end

theorem singleOrTop_of_shape {T : Type} {p : Pat T} (h : dnfShapeB p = true) :
    singleOrTop p = true := by
  cases p <;> simp [dnfShapeB, singleOrTop] at h ⊢ <;> simp [h]

/-- C4 (amended): after `canonical_nf` on a well-formed pattern, a
depth-first walk of the result holds at most one `Or`, and only at the
outermost level; every fork's children are `Branch` nodes or forks —
though not necessarily forks of the *same* kind, which is where the
original claim fails (`canonical_nf_not_claimed_dnf`). -/
theorem canonical_nf_single_or {T : Type} (p : Pat T) (hwf : wfT p = true) :
    singleOrTop (cnf p 0 []) = true ∧ wfT (cnf p 0 []) = true := by
  obtain ⟨hshape, hwfr⟩ := cnf_good p 0 [] hwf (by simp)
  exact ⟨singleOrTop_of_shape hshape, hwfr⟩

/-- Witness for `canonical_nf_single_or` at `And('A', Then('B','C'))`. -/
theorem canonical_nf_single_or_witness :
    wfT pMixed = true ∧
    (singleOrTop (cnf pMixed 0 []) = true ∧ wfT (cnf pMixed 0 []) = true) :=
  ⟨by simp [pMixed, wfT, wfForkElems, wfElems, leafInit, isLeaf],
   canonical_nf_single_or pMixed
     (by simp [pMixed, wfT, wfForkElems, wfElems, leafInit, isLeaf])⟩

/-! ### Construction-time errors (claim C9) -/

/-- `Branch.__init__` (`tree.py`) plus the empty check of
`TreePattern.__init__` (`pattern.py`): an empty member list is an
empty-pattern error; a nested `Tree` anywhere but the tail is a
structural error. -/
def mkBranchE {T : Type} (es : List (Pat T)) : Except String (Pat T) :=
  if es.isEmpty then .error "Branch cannot be empty."
  else if es.dropLast.any (fun e => !isLeaf e) then
    .error "Branch may only contain Tree instances at the end of elems"
  else .ok (.Branch es)

/-- `Fork.__init__` for `And`: empty is an error, leaves are wrapped. -/
def mkAndE {T : Type} (loc : Nat) (es : List (Pat T)) : Except String (Pat T) :=
  if es.isEmpty then .error "And cannot be empty."
  else .ok (.And loc (forkWrap es))

/-- `Fork.__init__` for `Then`. -/
def mkThenE {T : Type} (loc : Nat) (es : List (Pat T)) : Except String (Pat T) :=
  if es.isEmpty then .error "Then cannot be empty."
  else .ok (.Then loc (forkWrap es))

/-- `Fork.__init__` for `Or`. -/
def mkOrE {T : Type} (loc : Nat) (es : List (Pat T)) : Except String (Pat T) :=
  if es.isEmpty then .error "Or cannot be empty."
  else .ok (.Or loc (forkWrap es))

/-- C9: each combinator constructor errors exactly on an empty member
list (`And`/`Then`/`Or`), or on empty-or-non-tail-`Tree` members
(`Branch`); and `canonical_nf` keeps every constructed node well-formed
(with a leaf prefix), so the construction-time checks can never fire
during normalisation — the errors are raised at construction only. -/
theorem construction_errors {T : Type} :
    (∀ es : List (Pat T),
      (∃ msg, mkBranchE es = .error msg) ↔
        (es = [] ∨ ∃ e ∈ es.dropLast, isLeaf e = false)) ∧
    (∀ (loc : Nat) (es : List (Pat T)),
      ((∃ msg, mkAndE loc es = .error msg) ↔ es = []) ∧
      ((∃ msg, mkThenE loc es = .error msg) ↔ es = []) ∧
      ((∃ msg, mkOrE loc es = .error msg) ↔ es = [])) ∧
    (∀ (p : Pat T) (loc : Nat) (pre : List (Pat T)),
      wfT p = true → pre.all isLeaf = true → wfT (cnf p loc pre) = true) := by
  refine ⟨?_, ?_, ?_⟩
  · intro es
    unfold mkBranchE
    by_cases hemp : es.isEmpty
    · rw [if_pos hemp]
      simp [List.isEmpty_iff.mp hemp]
    · rw [if_neg hemp]
      have hne : ¬es = [] := by
        intro hc
        exact hemp (by simp [hc])
      by_cases hbad : es.dropLast.any (fun e => !isLeaf e)
      · rw [if_pos hbad]
        constructor
        · intro _
          rw [List.any_eq_true] at hbad
          obtain ⟨e, he, hle⟩ := hbad
          simp only [Bool.not_eq_true'] at hle
          exact Or.inr ⟨e, he, hle⟩
        · intro _
          exact ⟨_, rfl⟩
      · rw [if_neg hbad]
        rw [List.any_eq_true] at hbad
        push_neg at hbad
        constructor
        · rintro ⟨msg, hmsg⟩
          exact absurd hmsg (by simp)
        · rintro (rfl | ⟨e, he, hle⟩)
          · exact absurd rfl hne
          · exact absurd (by simpa using hle) (by simpa using hbad e he)
  · intro loc es
    have hgen : ∀ (mk : List (Pat T) → Pat T) (msg : String),
        (∃ m, (if es.isEmpty = true then (Except.error msg : Except String (Pat T))
          else Except.ok (mk es)) = .error m) ↔ es = [] := by
      intro mk msg
      by_cases hemp : es.isEmpty
      · rw [if_pos hemp]
        simp [List.isEmpty_iff.mp hemp]
      · rw [if_neg hemp]
        have hne : ¬es = [] := by
          intro hc
          exact hemp (by simp [hc])
        simp [hne]
    exact ⟨hgen (fun es => .And loc (forkWrap es)) _,
      hgen (fun es => .Then loc (forkWrap es)) _,
      hgen (fun es => .Or loc (forkWrap es)) _⟩
  · intro p loc pre hwf hpre
    exact (cnf_good p loc pre hwf hpre).2

/-! ### Flat normal forms, on which `canonical_nf` is the identity
(the amended claim C3) -/

mutual

/-- A flat normalisation result other than a top-level `Or`, as seen
from a parent fork of kind `k?` (`none` at the root): a non-empty
`Branch` of leaves, or a fork at scope 0 with at least two flat children
and of a kind different from its parent's. -/
def flatNonOr {T : Type} (k? : Option ForkKind) : Pat T → Bool
  | .Branch es => !es.isEmpty && es.all isLeaf
  | .And l es => decide (k? ≠ some .kAnd) && decide (l = 0) &&
      decide (2 ≤ es.length) && flatList (some .kAnd) es
  | .Then l es => decide (k? ≠ some .kThen) && decide (l = 0) &&
      decide (2 ≤ es.length) && flatList (some .kThen) es
  | _ => false
termination_by p => (sizeOf p, 1)
decreasing_by
  all_goals simp_wf
  all_goals (apply Prod.Lex.left; omega)

def flatList {T : Type} (k? : Option ForkKind) : List (Pat T) → Bool
  | [] => true
  | e :: rest => flatNonOr k? e && flatList k? rest
termination_by es => (sizeOf es, 0)
decreasing_by
  all_goals simp_wf
  all_goals (apply Prod.Lex.left; omega)

end

/-- A flat normal form: an `Or` at scope 0 over at least two flat
arms, or a single flat tree. -/
def isFlatNF {T : Type} (p : Pat T) : Bool :=
  match p with
  | .Or l es => decide (l = 0) && decide (2 ≤ es.length) && flatList none es
  | p => flatNonOr none p

theorem flatList_iff {T : Type} {k? : Option ForkKind} {es : List (Pat T)} :
    flatList k? es = true ↔ ∀ e ∈ es, flatNonOr k? e = true := by
  induction es with
  | nil => simp [flatList]
  | cons e rest ih => simp [flatList, ih]

theorem flatNonOr_not_leaf {T : Type} {k? : Option ForkKind} {p : Pat T}
    (h : flatNonOr k? p = true) : isLeaf p = false := by
  cases p <;> simp [isLeaf] <;> simp [flatNonOr] at h

theorem flatNonOr_not_or {T : Type} {k? : Option ForkKind} {p : Pat T}
    (h : flatNonOr k? p = true) : isOrP p = false := by
  cases p <;> simp [isOrP] <;> simp [flatNonOr] at h

theorem flatMap_singleton_id {α : Type} {l : List α} {f : α → List α}
    (h : ∀ e ∈ l, f e = [e]) : l.flatMap f = l := by
  induction l with
  | nil => rfl
  | cons e rest ih =>
    rw [List.flatMap_cons, h e (by simp), ih (fun x hx => h x (by simp [hx]))]
    rfl

/-- `cnfBranch` on an all-leaf member list just prepends the prefix. -/
theorem cnfBranch_all_leaf {T : Type} : ∀ (es : List (Pat T)) (loc : Nat)
    (pre : List (Pat T)), es ≠ [] → es.all isLeaf = true →
    cnfBranch es loc pre = .Branch (pre ++ es)
  | [], _, _, hne, _ => absurd rfl hne
  | [last], loc, pre, _, hall => by
    have hl : isLeaf last = true := by simpa using hall
    simp only [cnfBranch, if_pos hl]
  | e :: r :: rest, loc, pre, _, hall => by
    simp only [List.all_cons, Bool.and_eq_true] at hall
    have ih := cnfBranch_all_leaf (r :: rest) (loc + 1) (pre ++ [e]) (by simp)
      (by simp [List.all_cons, hall.2.1, hall.2.2])
    simp only [cnfBranch, ih, List.append_assoc, List.singleton_append]

mutual

/-- `canonical_nf` is the identity on flat non-`Or` results. -/
theorem flat_id {T : Type} : ∀ (k? : Option ForkKind) (p : Pat T),
    flatNonOr k? p = true → cnf p 0 [] = p
  | k?, .leaf t, h => by simp [flatNonOr] at h
  | k?, .Or l es, h => by simp [flatNonOr] at h
  | k?, .Branch es, h => by
    rw [flatNonOr, Bool.and_eq_true] at h
    obtain ⟨hne, hall⟩ := h
    simp only [cnf]
    rw [cnfBranch_all_leaf es 0 [] (by simpa using hne) hall]
    simp
  | k?, .And l [], h => by simp [flatNonOr] at h
  | k?, .And l [e], h => by simp [flatNonOr, flatList] at h
  | k?, .And l (e1 :: e2 :: rest), h => by
    rw [flatNonOr] at h
    simp only [Bool.and_eq_true, decide_eq_true_eq] at h
    obtain ⟨⟨⟨hk, hl⟩, hlen⟩, hkids⟩ := h
    subst hl
    · simp only [cnf, cnfFork]
      have hcl : cnfList (e1 :: e2 :: rest) 0 [] = e1 :: e2 :: rest :=
        flatList_id (some .kAnd) (e1 :: e2 :: rest) hkids
      rw [hcl]
      have hmem := flatList_iff.mp hkids
      have hfs : flatSame .kAnd 0 (e1 :: e2 :: rest) = e1 :: e2 :: rest := by
        unfold flatSame
        refine flatMap_singleton_id ?_
        intro e he
        have := hmem e he
        cases e <;> simp [flatNonOr] at this ⊢
      rw [hfs]
      have hwr : forkWrap (e1 :: e2 :: rest) = e1 :: e2 :: rest :=
        forkWrap_eq_self (fun e he => flatNonOr_not_leaf (hmem e he))
      rw [hwr]
      have hnoor : (e1 :: e2 :: rest).any isOrP = false := by
        rw [List.any_eq_false]
        intro e he
        simp [flatNonOr_not_or (hmem e he)]
      rw [hnoor]
      simp [mkFork]
  | k?, .Then l [], h => by simp [flatNonOr] at h
  | k?, .Then l [e], h => by simp [flatNonOr, flatList] at h
  | k?, .Then l (e1 :: e2 :: rest), h => by
    rw [flatNonOr] at h
    simp only [Bool.and_eq_true, decide_eq_true_eq] at h
    obtain ⟨⟨⟨hk, hl⟩, hlen⟩, hkids⟩ := h
    subst hl
    · simp only [cnf, cnfFork]
      have hcl : cnfList (e1 :: e2 :: rest) 0 [] = e1 :: e2 :: rest :=
        flatList_id (some .kThen) (e1 :: e2 :: rest) hkids
      rw [hcl]
      have hmem := flatList_iff.mp hkids
      have hfs : flatSame .kThen 0 (e1 :: e2 :: rest) = e1 :: e2 :: rest := by
        unfold flatSame
        refine flatMap_singleton_id ?_
        intro e he
        have := hmem e he
        cases e <;> simp [flatNonOr] at this ⊢
      rw [hfs]
      have hwr : forkWrap (e1 :: e2 :: rest) = e1 :: e2 :: rest :=
        forkWrap_eq_self (fun e he => flatNonOr_not_leaf (hmem e he))
      rw [hwr]
      have hnoor : (e1 :: e2 :: rest).any isOrP = false := by
        rw [List.any_eq_false]
        intro e he
        simp [flatNonOr_not_or (hmem e he)]
      rw [hnoor]
      simp [mkFork]
termination_by _ p => (sizeOf p, 1)
decreasing_by
  all_goals simp_wf
  all_goals first
    | (apply Prod.Lex.right; omega)
    | (apply Prod.Lex.left; omega)

theorem flatList_id {T : Type} : ∀ (k? : Option ForkKind) (es : List (Pat T)),
    flatList k? es = true → cnfList es 0 [] = es
  | _, [], _ => by simp [cnfList]
  | k?, e :: rest, h => by
    rw [flatList, Bool.and_eq_true] at h
    simp only [cnfList]
    rw [flat_id k? e h.1, flatList_id k? rest h.2]
termination_by _ es => (sizeOf es, 0)
decreasing_by
  all_goals simp_wf
  all_goals first
    | (apply Prod.Lex.right; omega)
    | (apply Prod.Lex.left; omega)

end

/-- `canonical_nf` is the identity on every flat normal form. -/
theorem flat_id_top {T : Type} (p : Pat T) (h : isFlatNF p = true) :
    cnf p 0 [] = p := by
  cases p with
  | Or l es =>
    rw [isFlatNF] at h
    simp only [Bool.and_eq_true, decide_eq_true_eq] at h
    obtain ⟨⟨hl, hlen⟩, hkids⟩ := h
    subst hl
    match es, hlen with
    | e1 :: e2 :: rest, _ =>
      simp only [cnf]
      have hcl : cnfList (e1 :: e2 :: rest) 0 [] = e1 :: e2 :: rest :=
        flatList_id none (e1 :: e2 :: rest) hkids
      rw [hcl]
      have hmem := flatList_iff.mp hkids
      have hfo : flatOr 0 (e1 :: e2 :: rest) = e1 :: e2 :: rest := by
        unfold flatOr
        refine flatMap_singleton_id ?_
        intro e he
        have := hmem e he
        cases e <;> simp [flatNonOr] at this ⊢
      rw [hfo]
      rw [forkWrap_eq_self (fun e he => flatNonOr_not_leaf (hmem e he))]
  | leaf t => exact flat_id none _ (by simpa [isFlatNF] using h)
  | Branch es => exact flat_id none _ (by simpa [isFlatNF] using h)
  | And l es => exact flat_id none _ (by simpa [isFlatNF] using h)
  | Then l es => exact flat_id none _ (by simpa [isFlatNF] using h)

/-- C3 (amended): `canonical_nf` is idempotent at every pattern whose
first normal form is flat (all forks at scope 0, no same-kind nesting);
in general a second application is *not* the identity — it renormalises
inner forks to scope 0 and merges them into same-kind parents
(`canonical_nf_not_idempotent`). -/
theorem canonical_nf_idempotent_flat {T : Type} (p : Pat T)
    (h : isFlatNF (cnf p 0 []) = true) :
    cnf (cnf p 0 []) 0 [] = cnf p 0 [] :=
  flat_id_top (cnf p 0 []) h

/-- `And('A', 'B')` as the Python constructors build it. -/
def pFlat : Pat Char :=
  .And 0 [.Branch [.leaf 'A'], .Branch [.leaf 'B']]

/-- Witness for `canonical_nf_idempotent_flat` at `And('A', 'B')`. -/
theorem canonical_nf_idempotent_flat_witness :
    isFlatNF (cnf pFlat 0 []) = true ∧
    cnf (cnf pFlat 0 []) 0 [] = cnf pFlat 0 [] :=
  ⟨by simp [pFlat, cnf, cnfBranch, cnfFork, cnfList, flatSame, forkWrap, isLeaf,
      mkFork, isOrP, isFlatNF, flatNonOr, flatList],
   canonical_nf_idempotent_flat pFlat
     (by simp [pFlat, cnf, cnfBranch, cnfFork, cnfList, flatSame, forkWrap, isLeaf,
       mkFork, isOrP, isFlatNF, flatNonOr, flatList])⟩

/-! ## Sibling constraints (`constraints.py`)

`Term` compares by `value` only (names are ignored); a `Sibling` holds an
index and a list of terms or nested siblings.  `flatten` iterates the
member list by position, extends the result with each nested sibling's
own flattened list, and then overwrites the member with `elems[0]` — the
outer group's (current) first member. -/

inductive SibElem where
  | term (name : String) (value : Option String)
  | sib (index : Nat) (elems : List SibElem)

mutual

/-- `Sibling.flatten` of one sibling `(index, elems)`: returns the
mutated self (as rebuilt after the loop) and the rest of the returned
list beyond self. -/
def flattenS (index : Nat) (elems : List SibElem) : SibElem × List SibElem :=
  match elems with
  | [] => (.sib index [], [])
  | e0 :: rest =>
    let (e0', ret0) :=
      match e0 with
      | .term n v => ((.term n v : SibElem), ([] : List SibElem))
      | .sib i s =>
        let (self0, tail0) := flattenS i s
        (self0, self0 :: tail0)
    let (rest', retR) := flattenRest e0' rest
    (.sib index (e0' :: rest'), ret0 ++ retR)
termination_by (sizeOf elems, 1)
decreasing_by
  all_goals simp_wf
  all_goals first
    | (apply Prod.Lex.right; omega)
    | (apply Prod.Lex.left; omega)

/-- The loop body for positions `i ≥ 1`: terms are skipped, nested
siblings are flattened into the result and the slot is overwritten with
the current `elems[0]` (`head`). -/
def flattenRest (head : SibElem) : List SibElem → List SibElem × List SibElem
  | [] => ([], [])
  | .term n v :: rest =>
    let (rest', ret) := flattenRest head rest
    (.term n v :: rest', ret)
  | .sib i s :: rest =>
    let (self0, tail0) := flattenS i s
    let (rest', ret) := flattenRest head rest
    (head :: rest', (self0 :: tail0) ++ ret)
termination_by es => (sizeOf es, 0)
decreasing_by
  all_goals simp_wf
  all_goals first
    | (apply Prod.Lex.right; omega)
    | (apply Prod.Lex.left; omega)

end

/-- The full list returned by `Sibling.flatten()`: the (mutated) self
followed by the flattened nested groups. -/
def flatten (index : Nat) (elems : List SibElem) : List SibElem :=
  let (selfF, ret) := flattenS index elems
  selfF :: ret

/-- C6: evaluating `flatten` at the claim's inputs (members as `Term`s,
as in the repository's tests).  A same-index nested sibling is *not*
inlined: both calls return two groups, and the nested member slot is
overwritten with the outer group's first element `A` (not the nested
group's head `B` shown in the file's own rule comment), so the first
group is `Sibling(0, A, A)` in both cases. -/
theorem sibling_flatten_behaviour :
    flatten 0 [.term "A" none, .sib 0 [.term "B" none, .term "C" none]] =
      [.sib 0 [.term "A" none, .term "A" none],
       .sib 0 [.term "B" none, .term "C" none]] ∧
    flatten 0 [.term "A" none, .sib 1 [.term "B" none, .term "C" none]] =
      [.sib 0 [.term "A" none, .term "A" none],
       .sib 1 [.term "B" none, .term "C" none]] ∧
    (flatten 0 [.term "A" none, .sib 0 [.term "B" none, .term "C" none]]).length ≠ 1 := by
  refine ⟨?_, ?_, ?_⟩ <;>
    simp [flatten, flattenS, flattenRest]

/-! ## Ordering constraints (`constraints.py`)

`Ord._construct_graph` exists in `constraints.py`; the `Total`/`Partial`
subclasses it is meant to carry (imported by `tree.py`, exercised by
`tests/test_constraints.py`) are not present in the source tree. -/

/-- Modelled from the spec: the `Total`/`Partial` ordering expressions
missing from `src` (`constraints.py` holds only the base
`Ord._construct_graph`).  `Total` asserts a strict chain over its
members; `Partial` asserts no relative order among its immediate
members, their own internal order preserved via recursion; members are
names or nested expressions. -/
inductive OrdE where
  | term (name : String)
  | Total (elems : List OrdE)
  | Partial (elems : List OrdE)

mutual

/-- Modelled from the spec, mirroring `Ord._construct_graph`: returns
the first nodes, last nodes, and precedence edges of the expression.
`Total` chains consecutive members (every last node of the previous
member gains an edge to every first node of the next, `first` is filled
from the first non-empty member); `Partial` pools its members' firsts
and lasts without adding edges among them. -/
def constructGraph : OrdE → List String × List String × List (String × String)
  | .term n => ([n], [n], [])
  | .Total es => constructChain es [] [] []
  | .Partial es => constructPar es
termination_by o => (sizeOf o, 1)
decreasing_by
  all_goals simp_wf
  all_goals first
    | (apply Prod.Lex.right; omega)
    | (apply Prod.Lex.left; omega)

/-- The fold of `Ord._construct_graph` over a `Total`'s members. -/
def constructChain : List OrdE → List String → List String →
    List (String × String) → List String × List String × List (String × String)
  | [], first, last, edges => (first, last, edges)
  | e :: rest, first, last, edges =>
    let (nf, nl, ne) := constructGraph e
    let edges' := edges ++ ne ++ last.flatMap (fun a => nf.map (fun b => (a, b)))
    let first' := if first.isEmpty then nf else first
    constructChain rest first' nl edges'
termination_by es _ _ _ => (sizeOf es, 0)
decreasing_by
  all_goals simp_wf
  all_goals first
    | (apply Prod.Lex.right; omega)
    | (apply Prod.Lex.left; omega)

/-- The fold over a `Partial`'s members: pool firsts and lasts. -/
def constructPar : List OrdE → List String × List String × List (String × String)
  | [] => ([], [], [])
  | e :: rest =>
    let (nf, nl, ne) := constructGraph e
    let (fs, ls, es') := constructPar rest
    (nf ++ fs, nl ++ ls, ne ++ es')
termination_by es => (sizeOf es, 0)
decreasing_by
  all_goals simp_wf
  all_goals first
    | (apply Prod.Lex.right; omega)
    | (apply Prod.Lex.left; omega)

end

/-- Edges reachable from the frontier, as `Ord.to_dag` walks the `Node`
graph from the first nodes; fuelled breadth-first collection. -/
def reachEdges (edges : List (String × String)) :
    Nat → List String → List String → List (String × String)
  | 0, _, _ => []
  | _ + 1, [], _ => []
  | fuel + 1, n :: restF, visited =>
    if visited.contains n then reachEdges edges fuel restF visited
    else
      let es := edges.filter (fun p => p.1 == n)
      es ++ reachEdges edges fuel (restF ++ es.map (fun p => p.2)) (n :: visited)

/-- `Ord.to_dag`: the successor edges reachable from the expression's
first nodes; the returned pair list `(name, successor)` renders the
mapping name → set of direct successors. -/
def toDag (o : OrdE) : List (String × String) :=
  let (first, _, edges) := constructGraph o
  reachEdges edges ((edges.length + first.length + 1) * (edges.length + 1)) first []

/-- C7: the three literal DAGs of the claim.  As edge lists:
`{'A': {'B'}}` is `[(A,B)]`; `{'A': {'B','C'}}` is `[(A,B),(A,C)]`;
`{'A': {'C'}, 'B': {'C'}}` is `[(A,C),(B,C)]`. -/
theorem ord_to_dag_literals :
    toDag (.Total [.term "A", .term "B"]) = [("A", "B")] ∧
    toDag (.Total [.term "A", .Partial [.term "B", .term "C"]]) =
      [("A", "B"), ("A", "C")] ∧
    toDag (.Total [.Partial [.term "A", .term "B"], .term "C"]) =
      [("A", "C"), ("B", "C")] := by
  refine ⟨?_, ?_, ?_⟩ <;>
    simp [toDag, constructGraph, constructChain, constructPar, reachEdges]

/-! ## Extension-method bridge (`_ext.py`)

Callback identity is all that matters, so callbacks are labels; a class
environment supplies the `__ext_eq__` attribute lookup (`getattr`
includes inherited attributes), the `issubclass` relation, and the
insertion-ordered `EXTERN_METHODS` registry. -/

inductive Cb where
  | eqFn (i : Nat)
  | reprFn (i : Nat)
  | builtinEq (cls : Nat)
  | builtinRepr (cls : Nat)
  deriving DecidableEq

structure ExtEnv where
  extEqAttr : Nat → Option Cb
  subclass : Nat → Nat → Bool
  registry : List (Nat × Cb × Cb)

/-- `_extension_type`: exact registry key first, then the first
registered type (in insertion order) of which `_cls` is a subclass. -/
def extensionType (env : ExtEnv) (c : Nat) : Option (Cb × Cb) :=
  match env.registry.find? (fun e => e.1 == c) with
  | some e => some (e.2.1, e.2.2)
  | none =>
    match env.registry.find? (fun e => env.subclass c e.1) with
    | some e => some (e.2.1, e.2.2)
    | none => none

/-- `get_ext_eq`: the class's `__ext_eq__` attribute, else the registry
extension's `eq`, else the class's own `__eq__`. -/
def get_ext_eq (env : ExtEnv) (c : Nat) : Cb :=
  match env.extEqAttr c with
  | some f => f
  | none =>
    match extensionType env c with
    | some m => m.1
    | none => .builtinEq c

/-- `get_ext_repr` as written in `_ext.py` line 55: it reads the
`EXT_EQUALS` (`__ext_eq__`) attribute — not `EXT_REPR` — before falling
back to the registry's `repr` and the class's own `__repr__`. -/
def get_ext_repr (env : ExtEnv) (c : Nat) : Cb :=
  match env.extEqAttr c with
  | some f => f
  | none =>
    match extensionType env c with
    | some m => m.2
    | none => .builtinRepr c

/-- Class 0 carries an `__ext_eq__` attribute and is registered with eq
extension 1 and repr extension 2. -/
def envBug : ExtEnv :=
  { extEqAttr := fun c => if c = 0 then some (.eqFn 7) else none
    subclass := fun a b => a == b
    registry := [(0, .eqFn 1, .reprFn 2)] }

/-- Classes 2 <: 1 <: 0; the grandparent 0 was registered before the
parent 1. -/
def envOrder : ExtEnv :=
  { extEqAttr := fun _ => none
    subclass := fun a b => a == b || (a == 2 && (b == 1 || b == 0)) || (a == 1 && b == 0)
    registry := [(0, .eqFn 10, .reprFn 20), (1, .eqFn 11, .reprFn 21)] }

/-- C8: `get_ext_repr` does not resolve display like equality.  For a
type with an `__ext_eq__` attribute that is registered with a repr
extension, it returns the *equality* callback (the line-55 lookup uses
`EXT_EQUALS`), not the registered repr extension; only without the
attribute does the registered repr surface.  And the ancestor fallback
returns the first-registered superclass, not the nearest one: with
grandparent 0 registered before parent 1, class 2 resolves to 0's
callbacks. -/
theorem get_ext_repr_divergence :
    get_ext_repr envBug 0 = .eqFn 7 ∧
    get_ext_repr envBug 0 ≠ .reprFn 2 ∧
    get_ext_eq envBug 0 = .eqFn 7 ∧
    get_ext_repr { envBug with extEqAttr := fun _ => none } 0 = .reprFn 2 ∧
    get_ext_eq envOrder 2 = .eqFn 10 ∧
    get_ext_repr envOrder 2 = .reprFn 20 := by
  refine ⟨rfl, by decide, rfl, rfl, rfl, rfl⟩

end Operast
